import Mathlib

/-!
Verification development for the push-manifest generator of polymer-build
(src/push-manifest.ts). The TypeScript source is shallowly embedded:

* JavaScript objects keyed by strings are modelled as association lists
  `List (String × α)` with `objSet` implementing the JS assignment
  semantics (overwrite in place when the key exists, append otherwise)
  and `objGet` / `objKeys` implementing property lookup and key listing
  in insertion order.
* The polymer-analyzer boundary is modelled abstractly: an analyzer is a
  function from a URL to an `AnalyzedDocument`, which is either a parsed
  document carrying its list of import edges (the result of
  `getFeatures` with kind "import"), a warning descriptor with an
  optional message, or an absent (undefined) result.
* The Node path helpers used by the source (`path.extname`,
  `path.posix.join`) are reimplemented over `List Char` following the
  Node.js semantics (segment normalization resolving "." and "..",
  collapsing separators, preserving a trailing separator).
* Async streaming code becomes explicit list processing; fallible code
  returns `Except String`.
-/

/-- Resource type enumeration from push-manifest.ts. -/
inductive ResourceType where
  | document
  | script
  | style
  | image
  | font
deriving DecidableEq

/-- A push manifest entry: optional type, optional weight (the source only
ever writes weight 1, but the field is optional in the interface). -/
structure PushManifestEntry where
  type : Option ResourceType
  weight : Option Nat
deriving DecidableEq

/-- Collection mapping a dependency URL to its entry (JS object, modelled
as an insertion-ordered association list). -/
abbrev PushManifestEntryCollection := List (String × PushManifestEntry)

/-- The push manifest: request URL to entry collection. -/
abbrev PushManifest := List (String × PushManifestEntryCollection)

/-- JS object property assignment: overwrite the binding in place when
the key is present (JS objects never hold duplicate keys), append a new
binding at the end otherwise. -/
def objSet {α : Type} (m : List (String × α)) (k : String) (v : α) :
    List (String × α) :=
  match m with
  | [] => [(k, v)]
  | p :: rest => if p.1 == k then (k, v) :: rest else p :: objSet rest k v

/-- JS object property lookup. -/
def objGet {α : Type} (m : List (String × α)) (k : String) : Option α :=
  (m.find? (fun p => p.1 == k)).map (fun p => p.2)

/-- JS Object.keys, in insertion order. -/
def objKeys {α : Type} (m : List (String × α)) : List String :=
  m.map (fun p => p.1)

/-- An import edge from the analyzer boundary: a target URL and the set of
kind tags of the feature (JS Set of strings, modelled as a list). -/
structure ImportEdge where
  url : String
  kinds : List String
deriving DecidableEq

/-- Node path.extname over forward-slash paths: the substring of the last
path component from its last dot, except that a dot-initial basename and
the basename ".." have no extension.  Trailing slashes are ignored, as in
Node. -/
def extname (url : String) : String :=
  let rb := url.data.reverse.dropWhile (fun c => c == '/')
  let rbase := rb.takeWhile (fun c => c != '/')
  if rbase.all (fun c => c != '.') then ""
  else if rbase = ['.', '.'] then ""
  else
    let pre := rbase.takeWhile (fun c => c != '.')
    let rest := rbase.dropWhile (fun c => c != '.')
    if rest.length == 1 then ""
    else String.mk ('.' :: pre.reverse)

/-- The fixed extension table of push-manifest.ts (a JS Map, modelled as
the list of its entries). -/
def extensionToTypeMapping : List (String × ResourceType) :=
  [(".css", .style),
   (".gif", .image),
   (".html", .document),
   (".png", .image),
   (".jpg", .image),
   (".js", .script),
   (".json", .script),
   (".svg", .image),
   (".webp", .image),
   (".woff", .font),
   (".woff2", .font)]

/-- getResourceTypeFromUrl: look the extension up in the fixed table. -/
def getResourceTypeFromUrl (url : String) : Option ResourceType :=
  (extensionToTypeMapping.find? (fun p => p.1 == extname url)).map
    (fun p => p.2)

/-- getResourceTypeFromImport: kind tags first, extension fallback. -/
def getResourceTypeFromImport (importFeature : ImportEdge) :
    Option ResourceType :=
  let importKinds := importFeature.kinds
  if importKinds.contains "css-import" || importKinds.contains "html-style"
  then some .style
  else if importKinds.contains "html-import" then some .document
  else if importKinds.contains "html-script" then some .script
  else getResourceTypeFromUrl importFeature.url

/-- createPushEntryFromImport: classify and set weight 1. -/
def createPushEntryFromImport (importFeature : ImportEdge) :
    PushManifestEntry :=
  { type := getResourceTypeFromImport importFeature, weight := some 1 }

/-- Result of the analyzer boundary getDocument call: a document with
its edges from the import analysis, a warning descriptor whose message
may be missing, or an absent (undefined) result. -/
inductive AnalyzedDocument where
  | document (imports : List ImportEdge)
  | warning (message : Option String)
  | absent
deriving DecidableEq

/-- An analyzer maps a URL to the getDocument outcome for that URL. -/
abbrev AnalyzerModel := String → AnalyzedDocument

/-- The message used in the resolution error: the warning message when it
is truthy, the literal fallback "unknown" otherwise (undefined descriptor,
missing message, or empty-string message, all falsy in JS). -/
def errMessageOf : AnalyzedDocument → String
  | .warning (some m) => if m == "" then "unknown" else m
  | _ => "unknown"

/-- shouldIgnoreFile from push-manifest.ts: true when an ignore list was
passed and contains the URL (an undefined list is falsy in JS). -/
def shouldIgnoreFile (ignoreUrls : Option (List String)) (url : String) :
    Bool :=
  match ignoreUrls with
  | some l => l.contains url
  | none => false

/-- The for-loop of generatePushManifestEntryForUrl: walk the analyzed
edges of the document in order, inserting an entry for each URL that is
neither ignored nor already present. -/
def collectImports (ignoreUrls : Option (List String)) :
    List ImportEdge → PushManifestEntryCollection →
    PushManifestEntryCollection
  | [], pushManifestEntries => pushManifestEntries
  | analyzedImport :: rest, pushManifestEntries =>
    let analyzedImportUrl := analyzedImport.url
    let analyzedImportEntry := objGet pushManifestEntries analyzedImportUrl
    if !shouldIgnoreFile ignoreUrls analyzedImportUrl &&
        !analyzedImportEntry.isSome then
      collectImports ignoreUrls rest
        (objSet pushManifestEntries analyzedImportUrl
          (createPushEntryFromImport analyzedImport))
    else
      collectImports ignoreUrls rest pushManifestEntries

/-- generatePushManifestEntryForUrl: analyze the URL; if no document is
produced, fail with an error naming the URL and the underlying message;
otherwise fold the import edges into a collection. -/
def generatePushManifestEntryForUrl (analyzer : AnalyzerModel)
    (url : String) (ignoreUrls : Option (List String)) :
    Except String PushManifestEntryCollection :=
  match analyzer url with
  | .document analyzedImports =>
    .ok (collectImports ignoreUrls analyzedImports [])
  | doc =>
    .error ("Unable to get document " ++ url ++ ": " ++ errMessageOf doc)

/-- Split a character list on a separator character; always returns at
least one (possibly empty) segment, like the JS string split. -/
def splitOnChar (sep : Char) : List Char → List (List Char)
  | [] => [[]]
  | c :: rest =>
    if c = sep then [] :: splitOnChar sep rest
    else
      match splitOnChar sep rest with
      | [] => [[c]]
      | seg :: segs => (c :: seg) :: segs

/-- Join segments with a separator character (inverse of splitOnChar on
separator-free segments). -/
def joinSegs (sep : Char) : List (List Char) → List Char
  | [] => []
  | [s] => s
  | s :: rest => s ++ sep :: joinSegs sep rest

/-- The segment pass of Node normalizeString: drop empty and "." segments,
resolve ".." against the accumulated output (popping a normal segment,
accumulating above the root only when allowAboveRoot is set).  The
accumulator holds the output segments in reverse. -/
def normSegs (allowAboveRoot : Bool) :
    List (List Char) → List (List Char) → List (List Char)
  | [], acc => acc.reverse
  | seg :: rest, acc =>
    if seg = [] ∨ seg = ['.'] then normSegs allowAboveRoot rest acc
    else if seg = ['.', '.'] then
      match acc with
      | [] =>
        normSegs allowAboveRoot rest
          (if allowAboveRoot then [['.', '.']] else [])
      | a :: as =>
        if a = ['.', '.'] then
          normSegs allowAboveRoot rest
            (if allowAboveRoot then ['.', '.'] :: (a :: as) else a :: as)
        else normSegs allowAboveRoot rest as
    else normSegs allowAboveRoot rest (seg :: acc)

/-- Whether a character-list path starts with the separator. -/
def isAbsolutePath (p : List Char) : Bool :=
  match p with
  | c :: _ => c == '/'
  | [] => false

/-- Whether a character-list path ends with the separator. -/
def hasTrailingSep (p : List Char) : Bool :=
  match p.getLast? with
  | some c => c == '/'
  | none => false

/-- Node path.posix.normalize on character lists: empty becomes ".",
otherwise the segments are normalized (".." kept above the root only for
relative paths), an empty body collapses to "/", "./" or ".", and the
absolute marker and trailing separator are restored. -/
def posixNormalizeChars (p : List Char) : List Char :=
  if p = [] then ['.']
  else
    let isAbs := isAbsolutePath p
    let trailing := hasTrailingSep p
    let segs := normSegs (!isAbs) (splitOnChar '/' p) []
    let body := joinSegs '/' segs
    if body = [] then
      if isAbs then ['/'] else if trailing then ['.', '/'] else ['.']
    else
      (if isAbs then ['/'] else []) ++ body ++
        (if trailing then ['/'] else [])

/-- Node path.posix.join for two arguments on character lists: empty
arguments are dropped, the rest are joined with "/" and normalized; with
no nonempty argument the result is ".". -/
def posixJoinChars (a b : List Char) : List Char :=
  if a = [] then
    if b = [] then ['.'] else posixNormalizeChars b
  else if b = [] then posixNormalizeChars a
  else posixNormalizeChars (a ++ '/' :: b)

/-- Node path.posix.join on strings. -/
def posixJoin (a b : String) : String :=
  String.mk (posixJoinChars a.data b.data)

/-- Strip every leading "/" (the replace of the source with the anchored
one-or-more-slashes pattern). -/
def stripLeadingSlashes (q : List Char) : List Char :=
  q.dropWhile (fun c => c == '/')

/-- The normalize arrow function of generatePushManifest: join the base
path and the URL with POSIX semantics and strip leading slashes. -/
def normalizeUrl (basePath p : String) : String :=
  String.mk (stripLeadingSlashes (posixJoinChars basePath.data p.data))

/-- The inner normalization loop: rewrite every dependency key of a
collection, with JS object assignment semantics on collision. -/
def normalizeCollection (basePath : String)
    (source : PushManifestEntryCollection) : PushManifestEntryCollection :=
  source.foldl
    (fun targets p => objSet targets (normalizeUrl basePath p.1) p.2) []

/-- The outer normalization loop of generatePushManifest: rewrite every
entry key and every dependency key. -/
def normalizePushManifest (basePath : String)
    (pushManifest : PushManifest) : PushManifest :=
  pushManifest.foldl
    (fun normalized p =>
      objSet normalized (normalizeUrl basePath p.1)
        (normalizeCollection basePath p.2)) []

/-- Project configuration: root, entrypoint, optional shell and ordered
fragment list. -/
structure ProjectConfig where
  root : String
  entrypoint : String
  shell : Option String
  fragments : List String

/-- The main push entry chosen by generatePushManifest: the shell if it is
configured and truthy (a missing or empty shell falls back to the
entrypoint, per the JS or-expression). -/
def mainPushEntrypoint (config : ProjectConfig) : String :=
  match config.shell with
  | some s => if s == "" then config.entrypoint else s
  | none => config.entrypoint

/-- The fragment loop of generatePushManifest: resolve each fragment with
the fragment ignore list and assign its collection into the manifest,
propagating the first resolution error. -/
def addFragmentEntries (analyzer : AnalyzerModel)
    (urlFromPath : String → String → String) (root : String)
    (fragmentIgnoreUrls : List String) :
    List String → PushManifest → Except String PushManifest
  | [], pushManifest => .ok pushManifest
  | fragment :: rest, pushManifest =>
    let absoluteFragmentUrl := urlFromPath root fragment
    match generatePushManifestEntryForUrl analyzer absoluteFragmentUrl
        (some fragmentIgnoreUrls) with
    | .error e => .error e
    | .ok entries =>
      addFragmentEntries analyzer urlFromPath root fragmentIgnoreUrls rest
        (objSet pushManifest absoluteFragmentUrl entries)

/-- Lines 195 to 211 of generatePushManifest: resolve the main push entry
with no ignore list, compute the fragment ignore list from the shell URL
and the keys of the shell collection, then resolve every fragment.  The
urlFromPath boundary of path-transformers.ts is a parameter, per the spec
treatment of the path-to-URL conversion as an external pure function. -/
def generateRawPushManifest (urlFromPath : String → String → String)
    (analyzer : AnalyzerModel) (config : ProjectConfig) :
    Except String PushManifest :=
  let absoluteShellUrl := urlFromPath config.root (mainPushEntrypoint config)
  match generatePushManifestEntryForUrl analyzer absoluteShellUrl none with
  | .error e => .error e
  | .ok shellEntries =>
    let pushManifest : PushManifest := objSet [] absoluteShellUrl shellEntries
    let shellImportUrls :=
      objKeys ((objGet pushManifest absoluteShellUrl).getD [])
    let fragmentIgnoreUrls := absoluteShellUrl :: shellImportUrls
    addFragmentEntries analyzer urlFromPath config.root fragmentIgnoreUrls
      config.fragments pushManifest

/-- generatePushManifest: the raw manifest followed by the normalization
loop of lines 222 to 233. -/
def generatePushManifest (urlFromPath : String → String → String)
    (analyzer : AnalyzerModel) (config : ProjectConfig)
    (basePath : String) : Except String PushManifest :=
  match generateRawPushManifest urlFromPath analyzer config with
  | .error e => .error e
  | .ok pushManifest => .ok (normalizePushManifest basePath pushManifest)

/-- The extension classification table exactly as the specification words
it, stated directly on the file extension (spec section 4.1), used to
compare the code against the spec. -/
def specExtensionTable (ext : String) : Option ResourceType :=
  if ext = ".css" then some .style
  else if ext = ".gif" then some .image
  else if ext = ".html" then some .document
  else if ext = ".png" then some .image
  else if ext = ".jpg" then some .image
  else if ext = ".js" then some .script
  else if ext = ".json" then some .script
  else if ext = ".svg" then some .image
  else if ext = ".webp" then some .image
  else if ext = ".woff" then some .font
  else if ext = ".woff2" then some .font
  else none

/-- Concrete analyzer with a duplicated import used by the C6 witness. -/
def dupImportAnalyzer : AnalyzerModel := fun u =>
  if u == "page.html" then
    .document [{ url := "a.css", kinds := ["css-import"] },
               { url := "a.css", kinds := ["html-script"] }]
  else .absent

/-- Analyzer for the C1 counterexample: the shell has no imports, the
fragment imports the shell URL itself. -/
def c1Analyzer : AnalyzerModel := fun u =>
  if u == "shell.html" then .document []
  else if u == "frag.html" then
    .document [{ url := "shell.html", kinds := ["html-import"] }]
  else .absent

/-- Config for the C1 counterexample. -/
def c1Config : ProjectConfig :=
  { root := "", entrypoint := "shell.html", shell := none,
    fragments := ["frag.html"] }

/-- Analyzer for the C1 witness: shell dependencies a.css and b.js, a
fragment with raw dependencies a.css and c.png. -/
def c1WitnessAnalyzer : AnalyzerModel := fun u =>
  if u == "shell.html" then
    .document [{ url := "a.css", kinds := ["css-import"] },
               { url := "b.js", kinds := ["html-script"] }]
  else if u == "frag.html" then
    .document [{ url := "a.css", kinds := ["css-import"] },
               { url := "c.png", kinds := [] }]
  else .absent

/-- Config for the C1 witness. -/
def c1WitnessConfig : ProjectConfig :=
  { root := "", entrypoint := "shell.html", shell := none,
    fragments := ["frag.html"] }

/-- Shell collection of the C1 witness analyzer. -/
def c1WitnessShellCol : PushManifestEntryCollection :=
  [("a.css", { type := some ResourceType.style, weight := some 1 }),
   ("b.js", { type := some ResourceType.script, weight := some 1 })]

/-- Raw fragment collection of the C1 witness analyzer. -/
def c1WitnessFragRaw : PushManifestEntryCollection :=
  [("a.css", { type := some ResourceType.style, weight := some 1 }),
   ("c.png", { type := some ResourceType.image, weight := some 1 })]

/-- A vinyl file of the stream: a path and its contents. -/
structure VFile where
  path : String
  contents : String
deriving DecidableEq

/-- The file map accumulated by the adapter loop: each incoming file is
stored under its canonical URL (last write per URL wins). -/
def collectFiles (urlFromPath : String → String → String) (root : String)
    (inputs : List VFile) : List (String × VFile) :=
  inputs.foldl (fun m file => objSet m (urlFromPath root file.path) file) []

/-- The manifest output path of the AddPushManifest constructor:
path.join of the project root and the configured output path, defaulting
to push-manifest.json (an empty string is falsy in JS and also falls back
to the default); the build runs on a POSIX platform, so path.join is the
POSIX join. -/
def addPushManifestOutPath (config : ProjectConfig)
    (outPath : Option String) : String :=
  posixJoin config.root
    (match outPath with
     | some s => if s == "" then "push-manifest.json" else s
     | none => "push-manifest.json")

/-- Hexadecimal digit used by the JSON string escaper. -/
def hexDigit (n : Nat) : Char :=
  if n < 10 then Char.ofNat ('0'.toNat + n)
  else Char.ofNat ('a'.toNat + (n - 10))

/-- JSON.stringify escaping of one character: quote, backslash and the
short control escapes, a u-escape for the other control characters, the
character itself otherwise. -/
def escapeJsonChar (c : Char) : List Char :=
  if c = Char.ofNat 34 then [Char.ofNat 92, Char.ofNat 34]
  else if c = Char.ofNat 92 then [Char.ofNat 92, Char.ofNat 92]
  else if c = Char.ofNat 8 then [Char.ofNat 92, 'b']
  else if c = Char.ofNat 9 then [Char.ofNat 92, 't']
  else if c = Char.ofNat 10 then [Char.ofNat 92, 'n']
  else if c = Char.ofNat 12 then [Char.ofNat 92, 'f']
  else if c = Char.ofNat 13 then [Char.ofNat 92, 'r']
  else if c.toNat < 32 then
    [Char.ofNat 92, 'u', '0', '0', hexDigit (c.toNat / 16),
     hexDigit (c.toNat % 16)]
  else [c]

/-- A JSON string literal for s: quoted and escaped. -/
def quoteJson (s : String) : String :=
  String.mk (Char.ofNat 34 ::
    (s.data.map escapeJsonChar).flatten ++ [Char.ofNat 34])

/-- One JSON object layer as produced by JSON.stringify with a two-space
indent: an empty object prints as a brace pair, otherwise each field is
on its own line indented one level beyond the given indent. -/
def jsonObjLines (indent : String) (fields : List (String × String)) :
    String :=
  if fields.isEmpty then "\x7b\x7d"
  else
    "\x7b\n" ++
      String.intercalate ",\n"
        (fields.map (fun p =>
          indent ++ "  " ++ quoteJson p.1 ++ ": " ++ p.2)) ++
      "\n" ++ indent ++ "\x7d"

/-- The JSON name of a resource type. -/
def resourceTypeToString : ResourceType → String
  | .document => "document"
  | .script => "script"
  | .style => "style"
  | .image => "image"
  | .font => "font"

/-- JSON.stringify of one push manifest entry (fields in declaration
order, absent optional fields omitted). -/
def serializePushEntry (indent : String) (e : PushManifestEntry) :
    String :=
  jsonObjLines indent
    ((match e.type with
      | some t => [("type", quoteJson (resourceTypeToString t))]
      | none => []) ++
     (match e.weight with
      | some w => [("weight", toString w)]
      | none => []))

/-- JSON.stringify of one entry collection. -/
def serializeCollection (indent : String)
    (c : PushManifestEntryCollection) : String :=
  jsonObjLines indent
    (c.map (fun p => (p.1, serializePushEntry (indent ++ "  ") p.2)))

/-- JSON.stringify of the push manifest with a two-space indent, as in
the source. -/
def serializePushManifest (pm : PushManifest) : String :=
  jsonObjLines "" (pm.map (fun p => (p.1, serializeCollection "  " p.2)))

/-- The transform loop of AddPushManifest: every incoming file is stored
in the file map and forwarded downstream unchanged (first component);
after the input is exhausted the push manifest is generated from the
accumulated file map and either one synthetic manifest file is produced
or the error aborts the stream (second component).  The analyzer is a
function of the accumulated file map, reflecting the FileMapUrlLoader
backing of the Analyzer instance. -/
def transformIter (urlFromPath : String → String → String)
    (analyzerOf : List (String × VFile) → AnalyzerModel)
    (config : ProjectConfig) (outPath : Option String)
    (basePath : Option String) (inputs : List VFile) :
    List VFile × Except String VFile :=
  let files := collectFiles urlFromPath config.root inputs
  let result := generatePushManifest urlFromPath (analyzerOf files) config
    (basePath.getD "")
  (inputs,
   match result with
   | .error e => .error e
   | .ok pushManifest =>
     .ok { path := addPushManifestOutPath config outPath,
           contents := serializePushManifest pushManifest })

/-- Substring containment on strings, stated on the character lists. -/
def strContains (s sub : String) : Prop :=
  ∃ l r : List Char, s.data = l ++ sub.data ++ r

/-- Analyzer for the C4 witness: the entrypoint document is missing. -/
def c4Analyzer : AnalyzerModel := fun u =>
  if u == "missing.html" then .warning (some "no such file")
  else .absent

/-- Config for the C4 witness. -/
def c4Config : ProjectConfig :=
  { root := "", entrypoint := "missing.html", shell := none,
    fragments := [] }

/-- A normal path segment: nonempty and neither the dot segment nor the
dot-dot segment. -/
def goodSeg (s : List Char) : Prop :=
  s ≠ [] ∧ s ≠ ['.'] ∧ s ≠ ['.', '.']

/-- Stack invariant of the normSegs accumulator: good segments on top of
a run of dot-dot segments. -/
def stackInv (acc : List (List Char)) : Prop :=
  ∃ g d, acc = g ++ d ∧ (∀ s ∈ g, goodSeg s) ∧ (∀ s ∈ d, s = ['.', '.'])

/-- Whether a string begins with a forward slash. -/
def beginsWithSlash (s : String) : Bool :=
  match s.data with
  | c :: _ => c == '/'
  | [] => false

theorem objGet_nil {α : Type} (k : String) :
    objGet ([] : List (String × α)) k = none := rfl

theorem objGet_cons {α : Type} (p : String × α) (m : List (String × α))
    (k : String) : objGet (p :: m) k =
      if p.1 == k then some p.2 else objGet m k := by
  unfold objGet
  by_cases h : p.1 == k
  · simp [List.find?_cons_of_pos, h]
  · simp only [h]
    rw [List.find?_cons_of_neg _ (by simpa using h)]
    simp

theorem objGet_objSet_self {α : Type} (m : List (String × α)) (k : String)
    (v : α) : objGet (objSet m k v) k = some v := by
  induction m with
  | nil => simp [objSet, objGet]
  | cons p rest ih =>
    by_cases h : p.1 == k
    · simp [objSet, h, objGet_cons]
    · simp only [objSet, h, if_false, Bool.false_eq_true]
      rw [objGet_cons]
      simp only [h, if_false, Bool.false_eq_true]
      exact ih

theorem objGet_objSet_ne {α : Type} (m : List (String × α)) (k k' : String)
    (v : α) (h : k' ≠ k) : objGet (objSet m k v) k' = objGet m k' := by
  have hkk : (k == k') = false := by
    simp [beq_iff_eq]
    exact fun he => h he.symm
  induction m with
  | nil => simp [objSet, objGet, hkk]
  | cons p rest ih =>
    by_cases hp : p.1 == k
    · have hp1 : p.1 = k := beq_iff_eq.mp hp
      simp only [objSet, hp, if_true]
      rw [objGet_cons, objGet_cons]
      simp [hp1, hkk]
    · simp only [objSet, hp, if_false, Bool.false_eq_true]
      rw [objGet_cons, objGet_cons]
      by_cases hpk' : p.1 == k'
      · simp [hpk']
      · simp only [hpk', if_false, Bool.false_eq_true]
        exact ih

theorem objGet_objSet {α : Type} (m : List (String × α)) (k k' : String)
    (v : α) : objGet (objSet m k v) k' =
      if k' = k then some v else objGet m k' := by
  by_cases h : k' = k
  · rw [h, if_pos rfl]
    exact objGet_objSet_self m k v
  · rw [if_neg h]
    exact objGet_objSet_ne m k k' v h

theorem mem_objSet {α : Type} {m : List (String × α)} {k : String} {v : α}
    {p : String × α} (h : p ∈ objSet m k v) : p ∈ m ∨ p = (k, v) := by
  induction m with
  | nil => simpa [objSet] using h
  | cons q rest ih =>
    by_cases hq : q.1 == k
    · simp only [objSet, hq, if_true, List.mem_cons] at h
      rcases h with h | h
      · exact Or.inr h
      · exact Or.inl (List.mem_cons_of_mem q h)
    · simp only [objSet, hq, if_false, Bool.false_eq_true,
        List.mem_cons] at h
      rcases h with h | h
      · exact Or.inl (by simp [h])
      · rcases ih h with h' | h'
        · exact Or.inl (List.mem_cons_of_mem q h')
        · exact Or.inr h'

theorem objSet_of_not_mem {α : Type} {m : List (String × α)} {k : String}
    (h : k ∉ objKeys m) (v : α) : objSet m k v = m ++ [(k, v)] := by
  induction m with
  | nil => rfl
  | cons q rest ih =>
    have hq : ¬(q.1 == k) = true := by
      simp only [beq_iff_eq]
      intro he
      exact h (by simp [objKeys, he])
    have hrest : k ∉ objKeys rest := fun hk =>
      h (List.mem_cons_of_mem q.1 hk)
    simp only [objSet, hq, if_false, Bool.false_eq_true, List.cons_append]
    rw [ih hrest]

theorem objKeys_objSet_of_mem {α : Type} {m : List (String × α)}
    {k : String} (h : k ∈ objKeys m) (v : α) :
    objKeys (objSet m k v) = objKeys m := by
  induction m with
  | nil => simp [objKeys] at h
  | cons q rest ih =>
    by_cases hq : q.1 == k
    · have hq1 : q.1 = k := beq_iff_eq.mp hq
      simp [objSet, hq, objKeys, hq1]
    · have hq1 : ¬q.1 = k := by simpa [beq_iff_eq] using hq
      have hk : k ∈ objKeys rest := by
        have := (by simpa [objKeys] using h : k = q.1 ∨ k ∈ objKeys rest)
        rcases this with h1 | h1
        · exact absurd h1.symm hq1
        · exact h1
      have step : objSet (q :: rest) k v = q :: objSet rest k v := by
        simp [objSet, hq]
      rw [step]
      show q.1 :: objKeys (objSet rest k v) = q.1 :: objKeys rest
      rw [ih hk]

theorem objKeys_objSet {α : Type} (m : List (String × α)) (k : String)
    (v : α) : objKeys (objSet m k v) =
      if k ∈ objKeys m then objKeys m else objKeys m ++ [k] := by
  by_cases hk : k ∈ objKeys m
  · rw [if_pos hk, objKeys_objSet_of_mem hk]
  · rw [if_neg hk, objSet_of_not_mem hk]
    simp [objKeys]

theorem nodup_objKeys_objSet {α : Type} {m : List (String × α)}
    (h : (objKeys m).Nodup) (k : String) (v : α) :
    (objKeys (objSet m k v)).Nodup := by
  rw [objKeys_objSet]
  by_cases hmem : k ∈ objKeys m
  · simpa [hmem] using h
  · simp only [hmem, if_false]
    rw [List.nodup_append]
    exact ⟨h, List.nodup_singleton k, by simpa using hmem⟩

theorem objGet_isSome_iff {α : Type} (m : List (String × α)) (k : String) :
    (objGet m k).isSome = true ↔ k ∈ objKeys m := by
  induction m with
  | nil => simp [objGet, objKeys]
  | cons p rest ih =>
    rw [objGet_cons]
    by_cases hp : p.1 == k
    · simp [hp, objKeys, beq_iff_eq.mp hp]
    · have hp1 : ¬p.1 = k := by simpa [beq_iff_eq] using hp
      simp only [hp, if_false, Bool.false_eq_true]
      rw [ih]
      show k ∈ objKeys rest ↔ k ∈ p.1 :: objKeys rest
      constructor
      · exact List.mem_cons_of_mem p.1
      · intro hm
        rcases List.mem_cons.mp hm with h1 | h1
        · exact absurd h1.symm hp1
        · exact h1

theorem objGet_eq_some_mem {α : Type} {m : List (String × α)} {k : String}
    {v : α} (h : objGet m k = some v) : (k, v) ∈ m := by
  induction m with
  | nil => simp [objGet] at h
  | cons p rest ih =>
    rw [objGet_cons] at h
    by_cases hp : p.1 == k
    · simp only [hp, if_true, Option.some.injEq] at h
      have hp1 : p.1 = k := beq_iff_eq.mp hp
      have : p = (k, v) := by
        cases p
        simp_all
      simp [this]
    · simp only [hp, if_false, Bool.false_eq_true] at h
      exact List.mem_cons_of_mem p (ih h)

theorem mem_objKeys_of_objGet {α : Type} {m : List (String × α)}
    {k : String} {v : α} (h : objGet m k = some v) : k ∈ objKeys m := by
  rw [← objGet_isSome_iff]
  simp [h]

theorem collectImports_preserves (ig : Option (List String))
    (l : List ImportEdge) (acc : PushManifestEntryCollection) (t : String)
    (e : PushManifestEntry) (h : objGet acc t = some e) :
    objGet (collectImports ig l acc) t = some e := by
  induction l generalizing acc with
  | nil => simpa [collectImports] using h
  | cons imp rest ih =>
    by_cases hig : shouldIgnoreFile ig imp.url = true
    · simp only [collectImports, hig, Bool.not_true, Bool.false_and,
        Bool.false_eq_true, if_false]
      exact ih acc h
    · by_cases hpres : (objGet acc imp.url).isSome = true
      · simp only [collectImports, hpres, Bool.not_true, Bool.and_false,
          Bool.false_eq_true, if_false]
        exact ih acc h
      · have hne : t ≠ imp.url := by
          intro he
          rw [← he, h] at hpres
          simp at hpres
        have hig2 : shouldIgnoreFile ig imp.url = false := by
          revert hig
          cases shouldIgnoreFile ig imp.url <;> simp
        have hpres2 : (objGet acc imp.url).isSome = false := by
          revert hpres
          cases (objGet acc imp.url).isSome <;> simp
        have hcond : (!shouldIgnoreFile ig imp.url &&
            !(objGet acc imp.url).isSome) = true := by
          rw [hig2, hpres2]
          rfl
        simp only [collectImports, hcond, if_true]
        apply ih
        rw [objGet_objSet_ne _ _ _ _ hne]
        exact h

theorem objGet_collectImports (ig : Option (List String))
    (l : List ImportEdge) (acc : PushManifestEntryCollection) (t : String)
    (h : objGet acc t = none) :
    objGet (collectImports ig l acc) t =
      if shouldIgnoreFile ig t then none
      else (l.find? (fun i => i.url == t)).map createPushEntryFromImport := by
  induction l generalizing acc with
  | nil =>
    simp only [collectImports, List.find?_nil, Option.map_none]
    rw [h]
    by_cases hig : shouldIgnoreFile ig t <;> simp [hig]
  | cons imp rest ih =>
    by_cases hu : imp.url = t
    · subst hu
      by_cases hig : shouldIgnoreFile ig imp.url = true
      · simp only [collectImports, hig, Bool.not_true, Bool.false_and,
          Bool.false_eq_true, if_false]
        rw [ih acc h, hig]
        simp
      · have hpres : (objGet acc imp.url).isSome = false := by
          rw [h]; rfl
        have hig2 : shouldIgnoreFile ig imp.url = false := by
          revert hig
          cases shouldIgnoreFile ig imp.url <;> simp
        have hcond : (!shouldIgnoreFile ig imp.url &&
            !(objGet acc imp.url).isSome) = true := by
          rw [hig2, hpres]
          rfl
        simp only [collectImports, hcond, if_true]
        rw [collectImports_preserves ig rest _ imp.url
          (createPushEntryFromImport imp) (objGet_objSet_self acc imp.url _)]
        rw [hig2]
        rw [List.find?_cons_of_pos _ (by simp)]
        simp
    · have hfind : List.find? (fun i => i.url == t) (imp :: rest) =
          List.find? (fun i => i.url == t) rest := by
        rw [List.find?_cons_of_neg _ (by simpa using hu)]
      rw [hfind]
      by_cases hig : shouldIgnoreFile ig imp.url = true
      · simp only [collectImports, hig, Bool.not_true, Bool.false_and,
          Bool.false_eq_true, if_false]
        exact ih acc h
      · by_cases hpres : (objGet acc imp.url).isSome = true
        · simp only [collectImports, hpres, Bool.not_true, Bool.and_false,
            Bool.false_eq_true, if_false]
          exact ih acc h
        · have hig2 : shouldIgnoreFile ig imp.url = false := by
            revert hig
            cases shouldIgnoreFile ig imp.url <;> simp
          have hpres2 : (objGet acc imp.url).isSome = false := by
            revert hpres
            cases (objGet acc imp.url).isSome <;> simp
          have hcond : (!shouldIgnoreFile ig imp.url &&
              !(objGet acc imp.url).isSome) = true := by
            rw [hig2, hpres2]
            rfl
          simp only [collectImports, hcond, if_true]
          apply ih
          rw [objGet_objSet_ne _ _ _ _ (fun he => hu he.symm)]
          exact h

theorem nodup_objKeys_collectImports (ig : Option (List String))
    (l : List ImportEdge) (acc : PushManifestEntryCollection)
    (h : (objKeys acc).Nodup) :
    (objKeys (collectImports ig l acc)).Nodup := by
  induction l generalizing acc with
  | nil => simpa [collectImports] using h
  | cons imp rest ih =>
    by_cases hcond : (!shouldIgnoreFile ig imp.url &&
        !(objGet acc imp.url).isSome) = true
    · simp only [collectImports, hcond, if_true]
      exact ih _ (nodup_objKeys_objSet h imp.url _)
    · have hcond2 : (!shouldIgnoreFile ig imp.url &&
          !(objGet acc imp.url).isSome) = false := by
        revert hcond
        cases (!shouldIgnoreFile ig imp.url && !(objGet acc imp.url).isSome)
          <;> simp
      simp only [collectImports, hcond2, Bool.false_eq_true, if_false]
      exact ih _ h

theorem mem_collectImports (ig : Option (List String))
    (l : List ImportEdge) (acc : PushManifestEntryCollection)
    (p : String × PushManifestEntry)
    (h : p ∈ collectImports ig l acc) :
    p ∈ acc ∨ ∃ i ∈ l, p = (i.url, createPushEntryFromImport i) := by
  induction l generalizing acc with
  | nil =>
    left
    simpa [collectImports] using h
  | cons imp rest ih =>
    by_cases hcond : (!shouldIgnoreFile ig imp.url &&
        !(objGet acc imp.url).isSome) = true
    · simp only [collectImports, hcond, if_true] at h
      rcases ih _ h with h1 | h1
      · rcases mem_objSet h1 with h2 | h2
        · exact Or.inl h2
        · exact Or.inr ⟨imp, List.mem_cons_self imp rest, h2⟩
      · obtain ⟨i, hi, he⟩ := h1
        exact Or.inr ⟨i, List.mem_cons_of_mem imp hi, he⟩
    · have hcond2 : (!shouldIgnoreFile ig imp.url &&
          !(objGet acc imp.url).isSome) = false := by
        revert hcond
        cases (!shouldIgnoreFile ig imp.url && !(objGet acc imp.url).isSome)
          <;> simp
      simp only [collectImports, hcond2, Bool.false_eq_true, if_false] at h
      rcases ih _ h with h1 | h1
      · exact Or.inl h1
      · obtain ⟨i, hi, he⟩ := h1
        exact Or.inr ⟨i, List.mem_cons_of_mem imp hi, he⟩

theorem objKeys_collectImports_filter (ig : List String)
    (l : List ImportEdge) (accI accN : PushManifestEntryCollection)
    (h : objKeys accI = (objKeys accN).filter (fun u => !(ig.contains u))) :
    objKeys (collectImports (some ig) l accI) =
      (objKeys (collectImports none l accN)).filter
        (fun u => !(ig.contains u)) := by
  induction l generalizing accI accN with
  | nil => simpa [collectImports] using h
  | cons imp rest ih =>
    have hmemIff : imp.url ∈ objKeys accI ↔
        imp.url ∈ objKeys accN ∧ ig.contains imp.url = false := by
      rw [h, List.mem_filter]
      simp
    by_cases hig : ig.contains imp.url = true
    · have himem : imp.url ∈ ig := by simpa using hig
      have hcondI : (!shouldIgnoreFile (some ig) imp.url &&
          !(objGet accI imp.url).isSome) = false := by
        simp only [shouldIgnoreFile]
        rw [hig]
        rfl
      simp only [collectImports, hcondI, Bool.false_eq_true, if_false]
      by_cases hpresN : (objGet accN imp.url).isSome = true
      · have hcondN : (!shouldIgnoreFile none imp.url &&
            !(objGet accN imp.url).isSome) = false := by
          simp only [shouldIgnoreFile]
          rw [hpresN]
          simp
        simp only [collectImports, hcondN, Bool.false_eq_true, if_false]
        exact ih accI accN h
      · have hpresN2 : (objGet accN imp.url).isSome = false := by
          revert hpresN
          cases (objGet accN imp.url).isSome <;> simp
        have hcondN : (!shouldIgnoreFile none imp.url &&
            !(objGet accN imp.url).isSome) = true := by
          simp only [shouldIgnoreFile]
          rw [hpresN2]
          rfl
        simp only [collectImports, hcondN, if_true]
        apply ih
        have habsN : imp.url ∉ objKeys accN := by
          intro hmem
          rw [(objGet_isSome_iff accN imp.url).mpr hmem] at hpresN2
          simp at hpresN2
        rw [objSet_of_not_mem habsN]
        unfold objKeys at h ⊢
        rw [List.map_append, List.filter_append]
        simp only [List.map_cons, List.map_nil, List.filter_cons]
        rw [h]
        simp [himem]
    · have hig2 : ig.contains imp.url = false := by
        revert hig
        cases ig.contains imp.url <;> simp
      have himem2 : imp.url ∉ ig := by
        intro hmem
        have : ig.contains imp.url = true := by simpa using hmem
        rw [this] at hig2
        exact Bool.noConfusion hig2
      by_cases hpresN : (objGet accN imp.url).isSome = true
      · have hpresI : (objGet accI imp.url).isSome = true := by
          rw [objGet_isSome_iff]
          rw [hmemIff]
          exact ⟨(objGet_isSome_iff accN imp.url).mp hpresN, hig2⟩
        have hcondI : (!shouldIgnoreFile (some ig) imp.url &&
            !(objGet accI imp.url).isSome) = false := by
          simp only [shouldIgnoreFile]
          rw [hpresI]
          simp
        have hcondN : (!shouldIgnoreFile none imp.url &&
            !(objGet accN imp.url).isSome) = false := by
          simp only [shouldIgnoreFile]
          rw [hpresN]
          simp
        simp only [collectImports, hcondI, hcondN, Bool.false_eq_true,
          if_false]
        exact ih accI accN h
      · have hpresN2 : (objGet accN imp.url).isSome = false := by
          revert hpresN
          cases (objGet accN imp.url).isSome <;> simp
        have hpresI : (objGet accI imp.url).isSome = false := by
          cases hI : (objGet accI imp.url).isSome
          · rfl
          · exfalso
            have := (hmemIff.mp ((objGet_isSome_iff accI imp.url).mp hI)).1
            rw [(objGet_isSome_iff accN imp.url).mpr this] at hpresN2
            simp at hpresN2
        have hcondI : (!shouldIgnoreFile (some ig) imp.url &&
            !(objGet accI imp.url).isSome) = true := by
          simp only [shouldIgnoreFile]
          rw [hig2, hpresI]
          rfl
        have hcondN : (!shouldIgnoreFile none imp.url &&
            !(objGet accN imp.url).isSome) = true := by
          simp only [shouldIgnoreFile]
          rw [hpresN2]
          rfl
        simp only [collectImports, hcondI, hcondN, if_true]
        apply ih
        have habsN : imp.url ∉ objKeys accN := by
          intro hmem
          rw [(objGet_isSome_iff accN imp.url).mpr hmem] at hpresN2
          simp at hpresN2
        have habsI : imp.url ∉ objKeys accI := by
          intro hmem
          rw [(objGet_isSome_iff accI imp.url).mpr hmem] at hpresI
          simp at hpresI
        rw [objSet_of_not_mem habsN, objSet_of_not_mem habsI]
        unfold objKeys at h ⊢
        rw [List.map_append, List.map_append, List.filter_append]
        simp only [List.map_cons, List.map_nil, List.filter_cons]
        rw [h]
        simp [himem2]

/-- C5: for every URL whose file extension is in the fixed table the
classifier returns exactly the mapped resource type, and for every URL
with any other extension, or no extension, it returns none; that is, the
classifier agrees with the specification table applied to the extension
of the URL. -/
theorem c5_extension_classification (url : String) :
    getResourceTypeFromUrl url = specExtensionTable (extname url) := by
  unfold getResourceTypeFromUrl
  generalize extname url = e
  by_cases h : e ∈ [".css", ".gif", ".html", ".png", ".jpg", ".js",
    ".json", ".svg", ".webp", ".woff", ".woff2"]
  · fin_cases h <;> rfl
  · simp only [List.mem_cons, List.mem_singleton] at h
    push_neg at h
    obtain ⟨h1, h2, h3, h4, h5, h6, h7, h8, h9, h10, h11⟩ := h
    have hfind : extensionToTypeMapping.find? (fun p => p.1 == e) = none := by
      rw [List.find?_eq_none]
      intro x hx
      fin_cases hx <;> simp only [beq_iff_eq] <;> intro he <;>
        (subst he; simp_all)
    rw [hfind]
    simp [specExtensionTable, h1, h2, h3, h4, h5, h6, h7, h8, h9, h10, h11]

/-- C3 counterexample: an import edge tagged both css-import and
html-import is classified as style, not document, because the
css-import/html-style test comes first; the claim that an html-import tag
always yields document regardless of the other kind tags is therefore
false on this edge. -/
theorem c3_counterexample :
    getResourceTypeFromImport
      { url := "x.html", kinds := ["css-import", "html-import"] } ≠
      some ResourceType.document := by
  decide

/-- C3 amended: for every import edge tagged html-import that is tagged
neither css-import nor html-style, classification returns document,
regardless of the edge URL extension and of any remaining kind tags. -/
theorem c3_html_import_is_document (e : ImportEdge)
    (h : e.kinds.contains "html-import" = true)
    (hcss : e.kinds.contains "css-import" = false)
    (hstyle : e.kinds.contains "html-style" = false) :
    getResourceTypeFromImport e = some ResourceType.document := by
  simp only [getResourceTypeFromImport, hcss, hstyle, h]
  rfl

/-- C3 amended witness: a concrete edge with an image extension and
additional unrelated kind tags is classified as document. -/
theorem c3_html_import_is_document_witness :
    getResourceTypeFromImport
      { url := "page.png", kinds := ["import", "html-import", "lazy"] } =
      some ResourceType.document :=
  c3_html_import_is_document
    { url := "page.png", kinds := ["import", "html-import", "lazy"] }
    (by decide) (by decide) (by decide)

/-- C10: when the analyzer result for a URL is absent, or is a warning
descriptor whose message is missing or empty (all falsy in JS), the entry
resolver fails with exactly the message using the literal fallback
"unknown". -/
theorem c10_unknown_fallback (a : AnalyzerModel) (url : String)
    (ig : Option (List String))
    (h : a url = .absent ∨ a url = .warning none ∨
      a url = .warning (some "")) :
    generatePushManifestEntryForUrl a url ig =
      .error ("Unable to get document " ++ url ++ ": unknown") := by
  have hstr : ∀ d : AnalyzedDocument, errMessageOf d = "unknown" →
      ("Unable to get document " ++ url ++ ": " ++ errMessageOf d) =
        ("Unable to get document " ++ url ++ ": unknown") := by
    intro d hd
    rw [hd, String.append_assoc ("Unable to get document " ++ url)]
    congr 1
  rcases h with h | h | h
  · unfold generatePushManifestEntryForUrl
    rw [h]
    show Except.error ("Unable to get document " ++ url ++ ": " ++
      errMessageOf AnalyzedDocument.absent) = _
    rw [hstr AnalyzedDocument.absent rfl]
  · unfold generatePushManifestEntryForUrl
    rw [h]
    show Except.error ("Unable to get document " ++ url ++ ": " ++
      errMessageOf (AnalyzedDocument.warning none)) = _
    rw [hstr (AnalyzedDocument.warning none) rfl]
  · unfold generatePushManifestEntryForUrl
    rw [h]
    show Except.error ("Unable to get document " ++ url ++ ": " ++
      errMessageOf (AnalyzedDocument.warning (some ""))) = _
    rw [hstr (AnalyzedDocument.warning (some "")) rfl]

/-- C10 witness: the fallback message at a concrete URL with an absent
analyzer result. -/
theorem c10_unknown_fallback_witness :
    generatePushManifestEntryForUrl (fun _ => AnalyzedDocument.absent)
      "app.html" none =
      .error "Unable to get document app.html: unknown" := by
  have h := c10_unknown_fallback (fun _ => AnalyzedDocument.absent)
    "app.html" none (Or.inl rfl)
  exact h

/-- C6: within a single entry resolution, each non-ignored imported URL
gets exactly one entry in the resulting collection, carrying the
classification of the first import edge with that URL; later duplicate
edges are skipped and no error is raised. -/
theorem c6_duplicate_imports_first_wins (a : AnalyzerModel) (url : String)
    (ig : Option (List String)) (I : List ImportEdge)
    (hdoc : a url = .document I) (e₁ : ImportEdge) (he₁ : e₁ ∈ I)
    (hig : shouldIgnoreFile ig e₁.url = false) :
    ∃ F, generatePushManifestEntryForUrl a url ig = .ok F ∧
      (objKeys F).count e₁.url = 1 ∧
      objGet F e₁.url =
        (I.find? (fun i => i.url == e₁.url)).map
          createPushEntryFromImport := by
  refine ⟨collectImports ig I [], ?_, ?_, ?_⟩
  · unfold generatePushManifestEntryForUrl
    rw [hdoc]
  · have hnd := nodup_objKeys_collectImports ig I [] (by simp [objKeys])
    have hlook := objGet_collectImports ig I [] e₁.url rfl
    rw [hig] at hlook
    simp only [Bool.false_eq_true, if_false] at hlook
    have hfind : (I.find? (fun i => i.url == e₁.url)).isSome = true := by
      rw [List.find?_isSome]
      exact ⟨e₁, he₁, by simp⟩
    obtain ⟨x, hx⟩ := Option.isSome_iff_exists.mp hfind
    rw [hx] at hlook
    have hmem : e₁.url ∈ objKeys (collectImports ig I []) :=
      mem_objKeys_of_objGet (by rw [hlook]; rfl)
    exact List.count_eq_one_of_mem hnd hmem
  · have hlook := objGet_collectImports ig I [] e₁.url rfl
    rw [hig] at hlook
    simpa using hlook

/-- C6 witness: with two edges for a.css the resolved collection has
exactly one a.css entry classified from the first (css-import) edge. -/
theorem c6_duplicate_imports_first_wins_witness :
    ∃ F, generatePushManifestEntryForUrl dupImportAnalyzer "page.html"
        none = .ok F ∧
      (objKeys F).count "a.css" = 1 ∧
      objGet F "a.css" =
        some { type := some ResourceType.style, weight := some 1 } := by
  obtain ⟨F, h1, h2, h3⟩ := c6_duplicate_imports_first_wins
    dupImportAnalyzer "page.html" none
    [{ url := "a.css", kinds := ["css-import"] },
     { url := "a.css", kinds := ["html-script"] }] rfl
    { url := "a.css", kinds := ["css-import"] } (by decide) rfl
  refine ⟨F, h1, h2, ?_⟩
  rw [h3]
  rfl

theorem addFragmentEntries_ok_lookup (a : AnalyzerModel)
    (u : String → String → String) (root : String) (ig : List String)
    (fragUrl : String) (F : PushManifestEntryCollection)
    (hgen : generatePushManifestEntryForUrl a fragUrl (some ig) = .ok F) :
    ∀ (l : List String) (pm raw : PushManifest),
    addFragmentEntries a u root ig l pm = .ok raw →
    ((∃ f ∈ l, u root f = fragUrl) ∨ objGet pm fragUrl = some F) →
    objGet raw fragUrl = some F := by
  intro l
  induction l with
  | nil =>
    intro pm raw hadd hinv
    have hpm : pm = raw := by
      simpa [addFragmentEntries] using hadd
    rcases hinv with ⟨f, hf, _⟩ | hinv
    · exact absurd hf (List.not_mem_nil f)
    · rw [← hpm]
      exact hinv
  | cons x rest ih =>
    intro pm raw hadd hinv
    rcases hgx : generatePushManifestEntryForUrl a (u root x)
        (some ig) with e | Ex
    · rw [addFragmentEntries, hgx] at hadd
      exact absurd hadd (by simp)
    · rw [addFragmentEntries, hgx] at hadd
      apply ih (objSet pm (u root x) Ex) raw hadd
      by_cases hx : u root x = fragUrl
      · right
        have hEx : Ex = F := by
          rw [hx] at hgx
          rw [hgx] at hgen
          exact (Except.ok.injEq _ _).mp hgen
        rw [hx, hEx]
        exact objGet_objSet_self pm fragUrl F
      · rcases hinv with ⟨f, hf, hfe⟩ | hinv
        · rcases List.mem_cons.mp hf with hfx | hfr
          · exact absurd (hfx ▸ hfe) hx
          · exact Or.inl ⟨f, hfr, hfe⟩
        · right
          rw [objGet_objSet_ne pm (u root x) fragUrl Ex
            (fun he => hx he.symm)]
          exact hinv

theorem addFragmentEntries_error (a : AnalyzerModel)
    (u : String → String → String) (root : String) (ig : List String) :
    ∀ (l : List String) (pm : PushManifest) (f : String), f ∈ l →
    (∃ e0, generatePushManifestEntryForUrl a (u root f) (some ig) =
      .error e0) →
    ∃ e, addFragmentEntries a u root ig l pm = .error e := by
  intro l
  induction l with
  | nil =>
    intro pm f hf
    exact absurd hf (List.not_mem_nil f)
  | cons x rest ih =>
    intro pm f hf hferr
    rcases hgx : generatePushManifestEntryForUrl a (u root x)
        (some ig) with e | Ex
    · exact ⟨e, by rw [addFragmentEntries, hgx]⟩
    · rcases List.mem_cons.mp hf with hfx | hfr
      · obtain ⟨e0, he0⟩ := hferr
        rw [hfx, hgx] at he0
        exact absurd he0 (by simp)
      · obtain ⟨e, he⟩ := ih (objSet pm (u root x) Ex) f hfr hferr
        exact ⟨e, by rw [addFragmentEntries, hgx]; exact he⟩

theorem mem_addFragmentEntries (a : AnalyzerModel)
    (u : String → String → String) (root : String) (ig : List String) :
    ∀ (l : List String) (pm raw : PushManifest),
    addFragmentEntries a u root ig l pm = .ok raw →
    ∀ p ∈ raw, p ∈ pm ∨ ∃ f F,
      generatePushManifestEntryForUrl a (u root f) (some ig) = .ok F ∧
      p = (u root f, F) := by
  intro l
  induction l with
  | nil =>
    intro pm raw hadd p hp
    have hpm : pm = raw := by simpa [addFragmentEntries] using hadd
    exact Or.inl (hpm ▸ hp)
  | cons x rest ih =>
    intro pm raw hadd p hp
    rcases hgx : generatePushManifestEntryForUrl a (u root x)
        (some ig) with e | Ex
    · rw [addFragmentEntries, hgx] at hadd
      exact absurd hadd (by simp)
    · rw [addFragmentEntries, hgx] at hadd
      rcases ih (objSet pm (u root x) Ex) raw hadd p hp with h1 | h1
      · rcases mem_objSet h1 with h2 | h2
        · exact Or.inl h2
        · exact Or.inr ⟨x, Ex, hgx, h2⟩
      · exact Or.inr h1

theorem generateRawPushManifest_eq (u : String → String → String)
    (a : AnalyzerModel) (config : ProjectConfig)
    (S : PushManifestEntryCollection)
    (hS : generatePushManifestEntryForUrl a
        (u config.root (mainPushEntrypoint config)) none = .ok S) :
    generateRawPushManifest u a config =
      addFragmentEntries a u config.root
        (u config.root (mainPushEntrypoint config) :: objKeys S)
        config.fragments
        (objSet [] (u config.root (mainPushEntrypoint config)) S) := by
  simp only [generateRawPushManifest]
  rw [hS]
  simp only [objGet_objSet_self, Option.getD_some]

/-- C1 amended: the builder resolves the main push entry with no ignore
list and every fragment with the ignore set consisting of the shell URL
together with the keys of the shell collection; consequently a fragment
entry of the raw manifest contains exactly the fragment raw dependencies
that are neither in the shell collection nor equal to the shell URL
itself (with their classifications unchanged), and that collection is the
one stored for the fragment URL in any successfully built raw manifest. -/
theorem c1_fragment_ignore_set (u : String → String → String)
    (a : AnalyzerModel) (config : ProjectConfig)
    (S F₀ : PushManifestEntryCollection) (frag : String)
    (hS : generatePushManifestEntryForUrl a
        (u config.root (mainPushEntrypoint config)) none = .ok S)
    (hfrag : frag ∈ config.fragments)
    (hF₀ : generatePushManifestEntryForUrl a (u config.root frag) none =
      .ok F₀) :
    ∃ F, generatePushManifestEntryForUrl a (u config.root frag)
        (some (u config.root (mainPushEntrypoint config) :: objKeys S)) =
        .ok F ∧
      objKeys F = (objKeys F₀).filter
        (fun d => !((u config.root (mainPushEntrypoint config) ::
          objKeys S).contains d)) ∧
      (∀ d, objGet F d =
        if (u config.root (mainPushEntrypoint config) ::
            objKeys S).contains d = true
        then none else objGet F₀ d) ∧
      (∀ raw, generateRawPushManifest u a config = .ok raw →
        objGet raw (u config.root frag) = some F) := by
  rcases hfa : a (u config.root frag) with I | m
  · have hF₀' : F₀ = collectImports none I [] := by
      unfold generatePushManifestEntryForUrl at hF₀
      rw [hfa] at hF₀
      exact ((Except.ok.injEq _ _).mp hF₀).symm
    set ig := u config.root (mainPushEntrypoint config) :: objKeys S with hig
    refine ⟨collectImports (some ig) I [], ?_, ?_, ?_, ?_⟩
    · unfold generatePushManifestEntryForUrl
      rw [hfa]
    · rw [hF₀']
      exact objKeys_collectImports_filter ig I [] [] (by simp [objKeys])
    · intro d
      have hI := objGet_collectImports (some ig) I [] d rfl
      have hN := objGet_collectImports none I [] d rfl
      rw [hF₀', hN]
      simp only [shouldIgnoreFile] at hI
      simpa [shouldIgnoreFile] using hI
    · intro raw hraw
      rw [generateRawPushManifest_eq u a config S hS] at hraw
      apply addFragmentEntries_ok_lookup a u config.root ig
        (u config.root frag) (collectImports (some ig) I [])
        (by unfold generatePushManifestEntryForUrl; rw [hfa])
        config.fragments _ raw hraw
      exact Or.inl ⟨frag, hfrag, rfl⟩
  · exfalso
    unfold generatePushManifestEntryForUrl at hF₀
    rw [hfa] at hF₀
    exact absurd hF₀ (by simp)
  · exfalso
    unfold generatePushManifestEntryForUrl at hF₀
    rw [hfa] at hF₀
    exact absurd hF₀ (by simp)

/-- C1 counterexample: the shell resolves to an empty collection and the
fragment raw dependencies are exactly the shell URL, which is not in the
shell collection; the claim then requires the fragment manifest entry to
be unchanged, but the build drops the shell URL from it (it is excluded
as a member of the ignore set [shellUrl]), producing an empty fragment
entry. -/
theorem c1_counterexample :
    generatePushManifestEntryForUrl c1Analyzer "shell.html" none =
      .ok [] ∧
    generatePushManifestEntryForUrl c1Analyzer "frag.html" none =
      .ok [("shell.html",
        { type := some ResourceType.document, weight := some 1 })] ∧
    generatePushManifest (fun _ p => p) c1Analyzer c1Config "" =
      .ok [("shell.html", []), ("frag.html", [])] ∧
    ([("shell.html",
        { type := some ResourceType.document, weight := some 1 })] :
      PushManifestEntryCollection) ≠ [] := by
  refine ⟨rfl, rfl, rfl, by decide⟩

/-- C1 witness: instantiation of the amended claim at a concrete overlap
(shell pushes a.css and b.js, the fragment imports a.css and c.png). -/
theorem c1_fragment_ignore_set_witness :
    ∃ F, generatePushManifestEntryForUrl c1WitnessAnalyzer "frag.html"
        (some ("shell.html" :: objKeys c1WitnessShellCol)) = .ok F ∧
      objKeys F = (objKeys c1WitnessFragRaw).filter
        (fun d =>
          !(("shell.html" :: objKeys c1WitnessShellCol).contains d)) ∧
      (∀ raw, generateRawPushManifest (fun _ p => p) c1WitnessAnalyzer
          c1WitnessConfig = .ok raw →
        objGet raw "frag.html" = some F) := by
  obtain ⟨F, h1, h2, _, h4⟩ := c1_fragment_ignore_set (fun _ p => p)
    c1WitnessAnalyzer c1WitnessConfig c1WitnessShellCol c1WitnessFragRaw
    "frag.html" rfl (by decide) rfl
  exact ⟨F, h1, h2, h4⟩

theorem weight_one_of_gen (a : AnalyzerModel) (url : String)
    (ig : Option (List String)) (F : PushManifestEntryCollection)
    (h : generatePushManifestEntryForUrl a url ig = .ok F) :
    ∀ q ∈ F, q.2.weight = some 1 := by
  intro q hq
  rcases hdoc : a url with I | m
  · unfold generatePushManifestEntryForUrl at h
    rw [hdoc] at h
    have hF : F = collectImports ig I [] :=
      ((Except.ok.injEq _ _).mp h).symm
    rw [hF] at hq
    rcases mem_collectImports ig I [] q hq with h1 | h1
    · exact absurd h1 (List.not_mem_nil q)
    · obtain ⟨i, _, he⟩ := h1
      rw [he]
      rfl
  · unfold generatePushManifestEntryForUrl at h
    rw [hdoc] at h
    exact absurd h (by simp)
  · unfold generatePushManifestEntryForUrl at h
    rw [hdoc] at h
    exact absurd h (by simp)

theorem mem_foldl_objSet {α β : Type} (f : String × α → String)
    (g : String × α → β) :
    ∀ (l : List (String × α)) (init : List (String × β)) (p : String × β),
    p ∈ l.foldl (fun acc q => objSet acc (f q) (g q)) init →
    p ∈ init ∨ ∃ q ∈ l, p = (f q, g q) := by
  intro l
  induction l with
  | nil =>
    intro init p hp
    exact Or.inl (by simpa using hp)
  | cons x rest ih =>
    intro init p hp
    simp only [List.foldl_cons] at hp
    rcases ih (objSet init (f x) (g x)) p hp with h1 | h1
    · rcases mem_objSet h1 with h2 | h2
      · exact Or.inl h2
      · exact Or.inr ⟨x, List.mem_cons_self x rest, h2⟩
    · obtain ⟨q, hq, he⟩ := h1
      exact Or.inr ⟨q, List.mem_cons_of_mem x hq, he⟩

theorem raw_manifest_collections (u : String → String → String)
    (a : AnalyzerModel) (config : ProjectConfig) (raw : PushManifest)
    (h : generateRawPushManifest u a config = .ok raw) :
    ∀ p ∈ raw, ∃ url ig F,
      generatePushManifestEntryForUrl a url ig = .ok F ∧ p.2 = F := by
  intro p hp
  rcases hS : generatePushManifestEntryForUrl a
      (u config.root (mainPushEntrypoint config)) none with e | S
  · simp only [generateRawPushManifest] at h
    rw [hS] at h
    exact Except.noConfusion h
  · rw [generateRawPushManifest_eq u a config S hS] at h
    rcases mem_addFragmentEntries a u config.root _ config.fragments _ raw
        h p hp with h1 | h1
    · rcases mem_objSet h1 with h2 | h2
      · exact absurd h2 (List.not_mem_nil p)
      · exact ⟨u config.root (mainPushEntrypoint config), none, S, hS,
          by rw [h2]⟩
    · obtain ⟨f, F, hgen, he⟩ := h1
      exact ⟨u config.root f, some _, F, hgen, by rw [he]⟩

/-- C8: every entry inserted by entry resolution carries weight exactly
1, and consequently every entry of every collection of a successfully
generated (normalized) push manifest has weight exactly 1; no other
weight value is ever emitted. -/
theorem c8_weight_always_one (u : String → String → String)
    (a : AnalyzerModel) (config : ProjectConfig) (basePath : String)
    (pm : PushManifest)
    (hok : generatePushManifest u a config basePath = .ok pm) :
    (∀ url ig F, generatePushManifestEntryForUrl a url ig = .ok F →
      ∀ q ∈ F, q.2.weight = some 1) ∧
    (∀ p ∈ pm, ∀ q ∈ p.2, q.2.weight = some 1) := by
  constructor
  · intro url ig F h
    exact weight_one_of_gen a url ig F h
  · intro p hp q hq
    rcases hraw : generateRawPushManifest u a config with e | raw
    · unfold generatePushManifest at hok
      rw [hraw] at hok
      exact absurd hok (by simp)
    · unfold generatePushManifest at hok
      rw [hraw] at hok
      have hpm : pm = normalizePushManifest basePath raw :=
        ((Except.ok.injEq _ _).mp hok).symm
      rw [hpm] at hp
      unfold normalizePushManifest at hp
      rcases mem_foldl_objSet (fun q0 => normalizeUrl basePath q0.1)
          (fun q0 => normalizeCollection basePath q0.2) raw [] p hp
        with h1 | h1
      · exact absurd h1 (List.not_mem_nil p)
      · obtain ⟨q0, hq0, he⟩ := h1
        rw [he] at hq
        unfold normalizeCollection at hq
        rcases mem_foldl_objSet (fun q1 => normalizeUrl basePath q1.1)
            (fun q1 => q1.2) q0.2 [] q hq with h2 | h2
        · exact absurd h2 (List.not_mem_nil q)
        · obtain ⟨q1, hq1, he1⟩ := h2
          obtain ⟨url, ig, F, hgen, hcol⟩ :=
            raw_manifest_collections u a config raw hraw q0 hq0
          rw [he1]
          show q1.2.weight = some 1
          exact weight_one_of_gen a url ig F hgen q1 (hcol ▸ hq1)

/-- C8 witness: the weight-one invariant instantiated on a concrete
successful build. -/
theorem c8_weight_always_one_witness :
    (∀ url ig F, generatePushManifestEntryForUrl c1WitnessAnalyzer url ig =
        .ok F → ∀ q ∈ F, q.2.weight = some 1) ∧
    (∀ p ∈ ([("shell.html", c1WitnessShellCol),
        ("frag.html",
          [("c.png",
            { type := some ResourceType.image, weight := some 1 })])] :
        PushManifest), ∀ q ∈ p.2, q.2.weight = some 1) :=
  c8_weight_always_one (fun _ p => p) c1WitnessAnalyzer c1WitnessConfig ""
    [("shell.html", c1WitnessShellCol),
     ("frag.html",
       [("c.png", { type := some ResourceType.image, weight := some 1 })])]
    rfl

/-- C7: the adapter forwards every input file downstream unchanged and,
once generation succeeds on the accumulated file map, emits exactly one
additional synthetic file after the inputs, at the configured output
path, whose contents are the normalized manifest serialized as indented
JSON. -/
theorem c7_adapter_emits_manifest (u : String → String → String)
    (analyzerOf : List (String × VFile) → AnalyzerModel)
    (config : ProjectConfig) (outPath : Option String)
    (basePath : Option String) (inputs : List VFile) (pm : PushManifest)
    (hok : generatePushManifest u
        (analyzerOf (collectFiles u config.root inputs)) config
        (basePath.getD "") = .ok pm) :
    transformIter u analyzerOf config outPath basePath inputs =
      (inputs, .ok { path := addPushManifestOutPath config outPath,
                     contents := serializePushManifest pm }) := by
  simp only [transformIter]
  rw [hok]

/-- C7 witness: a concrete run with one input file; the input is
forwarded and the synthetic push-manifest.json file follows it. -/
theorem c7_adapter_emits_manifest_witness :
    transformIter (fun _ p => p) (fun _ => c1WitnessAnalyzer)
      c1WitnessConfig none none
      [{ path := "shell.html", contents := "x" }] =
      ([{ path := "shell.html", contents := "x" }],
       .ok { path := "push-manifest.json",
             contents := serializePushManifest
               [("shell.html", c1WitnessShellCol),
                ("frag.html",
                  [("c.png",
                    { type := some ResourceType.image,
                      weight := some 1 })])] }) :=
  c7_adapter_emits_manifest (fun _ p => p) (fun _ => c1WitnessAnalyzer)
    c1WitnessConfig none none [{ path := "shell.html", contents := "x" }]
    [("shell.html", c1WitnessShellCol),
     ("frag.html",
       [("c.png", { type := some ResourceType.image, weight := some 1 })])]
    rfl

theorem strContains_url (url m : String) :
    strContains ("Unable to get document " ++ url ++ ": " ++ m) url := by
  refine ⟨("Unable to get document ").data, (": " ++ m).data, ?_⟩
  show (("Unable to get document " ++ url ++ ": ") ++ m).data = _
  simp only [String.data_append]
  simp [List.append_assoc]

theorem strContains_msg (url m : String) :
    strContains ("Unable to get document " ++ url ++ ": " ++ m) m := by
  refine ⟨("Unable to get document " ++ url ++ ": ").data, [], ?_⟩
  show (("Unable to get document " ++ url ++ ": ") ++ m).data = _
  simp only [String.data_append]
  simp

/-- C4: when the analyzer cannot produce a document for a requested entry
URL (shell or fragment), entry resolution fails with an error message
containing both that URL and the underlying failure message, the whole
manifest build aborts with an error (no partial manifest is returned),
and the adapter produces no synthetic output manifest file. -/
theorem c4_resolution_error_fatal (u : String → String → String)
    (a : AnalyzerModel) (config : ProjectConfig) (url msg : String)
    (hfail : a url = .warning (some msg)) (hmsg : msg ≠ "")
    (hentry : url = u config.root (mainPushEntrypoint config) ∨
      ∃ frag ∈ config.fragments, url = u config.root frag) :
    (∀ ig, ∃ e, generatePushManifestEntryForUrl a url ig = .error e ∧
      strContains e url ∧ strContains e msg) ∧
    (∀ basePath, ∃ e,
      generatePushManifest u a config basePath = .error e) ∧
    (∀ (analyzerOf : List (String × VFile) → AnalyzerModel)
        (outPath basePath : Option String) (inputs : List VFile),
      (∀ fs, analyzerOf fs = a) →
      ∃ e, transformIter u analyzerOf config outPath basePath inputs =
        (inputs, .error e)) := by
  have hbeq : (msg == "") = false := by
    simp [beq_iff_eq]
    exact hmsg
  have hgen : ∀ ig, generatePushManifestEntryForUrl a url ig =
      .error ("Unable to get document " ++ url ++ ": " ++ msg) := by
    intro ig
    unfold generatePushManifestEntryForUrl
    rw [hfail]
    show Except.error ("Unable to get document " ++ url ++ ": " ++
      errMessageOf (AnalyzedDocument.warning (some msg))) = _
    have hmsg2 : errMessageOf (AnalyzedDocument.warning (some msg)) =
        msg := by
      show (if (msg == "") = true then "unknown" else msg) = msg
      rw [hbeq]
      simp
    rw [hmsg2]
  have hbuildraw : ∃ e, generateRawPushManifest u a config = .error e := by
    rcases hS : generatePushManifestEntryForUrl a
        (u config.root (mainPushEntrypoint config)) none with e | S
    · refine ⟨e, ?_⟩
      simp only [generateRawPushManifest]
      rw [hS]
    · rcases hentry with hurl | ⟨frag, hfrag, hurl⟩
      · exfalso
        rw [← hurl] at hS
        rw [hgen none] at hS
        exact Except.noConfusion hS
      · rw [generateRawPushManifest_eq u a config S hS]
        apply addFragmentEntries_error a u config.root _ config.fragments
          _ frag hfrag
        exact ⟨_, by rw [← hurl]; exact hgen _⟩
  constructor
  · intro ig
    exact ⟨_, hgen ig, strContains_url url msg, strContains_msg url msg⟩
  constructor
  · intro basePath
    obtain ⟨e, he⟩ := hbuildraw
    refine ⟨e, ?_⟩
    unfold generatePushManifest
    rw [he]
  · intro analyzerOf outPath basePath inputs hao
    obtain ⟨e, he⟩ := hbuildraw
    refine ⟨e, ?_⟩
    simp only [transformIter, hao]
    have : generatePushManifest u a config (basePath.getD "") =
        .error e := by
      unfold generatePushManifest
      rw [he]
    rw [this]

/-- C4 witness: the fatal-error behaviour at a concrete missing
entrypoint. -/
theorem c4_resolution_error_fatal_witness :
    (∃ e, generatePushManifestEntryForUrl c4Analyzer "missing.html" none =
      .error e ∧ strContains e "missing.html" ∧
      strContains e "no such file") ∧
    (∃ e, generatePushManifest (fun _ p => p) c4Analyzer c4Config "" =
      .error e) ∧
    (∃ e, transformIter (fun _ p => p) (fun _ => c4Analyzer) c4Config
        none none [] = ([], .error e)) := by
  have h := c4_resolution_error_fatal (fun _ p => p) c4Analyzer c4Config
    "missing.html" "no such file" rfl (by decide) (Or.inl rfl)
  exact ⟨h.1 none, h.2.1 "", h.2.2 (fun _ => c4Analyzer) none none []
    (fun _ => rfl)⟩

theorem splitOnChar_cons_sep (sep : Char) (l : List Char) :
    splitOnChar sep (sep :: l) = [] :: splitOnChar sep l := by
  conv_lhs => unfold splitOnChar
  simp

theorem splitOnChar_cons_ne (sep c : Char) (l : List Char)
    (h : ¬c = sep) :
    splitOnChar sep (c :: l) =
      match splitOnChar sep l with
      | [] => [[c]]
      | seg :: segs => (c :: seg) :: segs := by
  conv_lhs => unfold splitOnChar
  simp [h]

theorem splitOnChar_ne_nil (sep : Char) (l : List Char) :
    splitOnChar sep l ≠ [] := by
  cases l with
  | nil => simp [splitOnChar]
  | cons c rest =>
    by_cases h : c = sep
    · rw [h, splitOnChar_cons_sep]
      simp
    · rw [splitOnChar_cons_ne sep c rest h]
      rcases hs : splitOnChar sep rest with _ | ⟨seg, segs⟩
      · simp
      · simp

theorem mem_splitOnChar_no_sep (sep : Char) (l : List Char) :
    ∀ s ∈ splitOnChar sep l, sep ∉ s := by
  induction l with
  | nil =>
    intro s hs
    simp only [splitOnChar, List.mem_singleton] at hs
    simp [hs]
  | cons c rest ih =>
    intro s hs
    by_cases h : c = sep
    · rw [h, splitOnChar_cons_sep] at hs
      rcases List.mem_cons.mp hs with hs | hs
      · simp [hs]
      · exact ih s hs
    · rw [splitOnChar_cons_ne sep c rest h] at hs
      rcases hsplit : splitOnChar sep rest with _ | ⟨seg, segs⟩
      · exact absurd hsplit (splitOnChar_ne_nil sep rest)
      · rw [hsplit] at hs
        rcases List.mem_cons.mp hs with hs1 | hs1
        · intro hmem
          rw [hs1] at hmem
          rcases List.mem_cons.mp hmem with h2 | h2
          · exact h h2.symm
          · exact ih seg (by rw [hsplit]; exact List.mem_cons_self seg segs)
              h2
        · exact ih s (by rw [hsplit]; exact List.mem_cons_of_mem seg hs1)

theorem splitOnChar_no_sep (sep : Char) (l : List Char)
    (h : ∀ c ∈ l, c ≠ sep) : splitOnChar sep l = [l] := by
  induction l with
  | nil => rfl
  | cons c rest ih =>
    have hc : ¬c = sep := h c (List.mem_cons_self c rest)
    have hrest := ih (fun c hcm => h c (List.mem_cons_of_mem _ hcm))
    rw [splitOnChar_cons_ne sep c rest hc, hrest]

theorem splitOnChar_append_sep (sep : Char) (s t : List Char)
    (h : ∀ c ∈ s, c ≠ sep) :
    splitOnChar sep (s ++ sep :: t) = s :: splitOnChar sep t := by
  induction s with
  | nil =>
    show splitOnChar sep (sep :: t) = [] :: splitOnChar sep t
    exact splitOnChar_cons_sep sep t
  | cons c rest ih =>
    have hc : ¬c = sep := h c (List.mem_cons_self c rest)
    have hrest := ih (fun c hcm => h c (List.mem_cons_of_mem _ hcm))
    show splitOnChar sep (c :: (rest ++ sep :: t)) = _
    rw [splitOnChar_cons_ne sep c _ hc, hrest]

theorem splitOnChar_join (sep : Char) (segs : List (List Char))
    (hsep : ∀ s ∈ segs, ∀ c ∈ s, c ≠ sep) (hne : segs ≠ []) :
    splitOnChar sep (joinSegs sep segs) = segs := by
  induction segs with
  | nil => exact absurd rfl hne
  | cons s rest ih =>
    cases rest with
    | nil =>
      show splitOnChar sep s = [s]
      exact splitOnChar_no_sep sep s (hsep s (List.mem_cons_self s []))
    | cons s2 rest2 =>
      show splitOnChar sep (s ++ sep :: joinSegs sep (s2 :: rest2)) = _
      rw [splitOnChar_append_sep sep s _
        (hsep s (List.mem_cons_self s _))]
      rw [ih (fun q hq => hsep q (List.mem_cons_of_mem s hq)) (by simp)]

theorem splitOnChar_append_sep_end (sep : Char) (l : List Char) :
    splitOnChar sep (l ++ [sep]) = splitOnChar sep l ++ [[]] := by
  induction l with
  | nil => simp [splitOnChar]
  | cons c rest ih =>
    show splitOnChar sep (c :: (rest ++ [sep])) = _
    by_cases h : c = sep
    · rw [h, splitOnChar_cons_sep, splitOnChar_cons_sep, ih]
      rfl
    · rw [splitOnChar_cons_ne sep c _ h, splitOnChar_cons_ne sep c _ h, ih]
      rcases hsplit : splitOnChar sep rest with _ | ⟨seg, segs⟩
      · exact absurd hsplit (splitOnChar_ne_nil sep rest)
      · rfl

theorem joinSegs_ne_nil (sep : Char) (segs : List (List Char))
    (hne : segs ≠ []) (h : ∀ s ∈ segs, s ≠ []) :
    joinSegs sep segs ≠ [] := by
  cases segs with
  | nil => exact absurd rfl hne
  | cons s rest =>
    cases rest with
    | nil => exact h s (List.mem_cons_self s [])
    | cons s2 rest2 =>
      show s ++ sep :: joinSegs sep (s2 :: rest2) ≠ []
      simp

theorem head?_joinSegs (sep : Char) (s : List Char)
    (rest : List (List Char)) (h : s ≠ []) :
    (joinSegs sep (s :: rest)).head? = s.head? := by
  cases rest with
  | nil => rfl
  | cons s2 rest2 =>
    show (s ++ sep :: joinSegs sep (s2 :: rest2)).head? = s.head?
    cases s with
    | nil => exact absurd rfl h
    | cons c cs => rfl

theorem getLast?_joinSegs (sep : Char) (segs : List (List Char))
    (hne : segs ≠ []) (h : ∀ s ∈ segs, s ≠ [] ∧ sep ∉ s) :
    ∀ c, (joinSegs sep segs).getLast? = some c → c ≠ sep := by
  induction segs with
  | nil => exact absurd rfl hne
  | cons s rest ih =>
    cases rest with
    | nil =>
      intro c hc
      have hmem : c ∈ s := by
        obtain ⟨ys, hys⟩ := List.getLast?_eq_some_iff.mp hc
        have hs : s = ys ++ [c] := hys
        rw [hs]
        simp
      intro hcs
      exact (h s (List.mem_cons_self s [])).2 (hcs ▸ hmem)
    | cons s2 rest2 =>
      intro c hc
      have hjoin : joinSegs sep (s :: s2 :: rest2) =
          s ++ sep :: joinSegs sep (s2 :: rest2) := rfl
      rw [hjoin, List.getLast?_append] at hc
      have hne2 : joinSegs sep (s2 :: rest2) ≠ [] :=
        joinSegs_ne_nil sep _ (by simp)
          (fun q hq => (h q (List.mem_cons_of_mem s hq)).1)
      have hlast2 : (sep :: joinSegs sep (s2 :: rest2)).getLast? =
          (joinSegs sep (s2 :: rest2)).getLast? := by
        rcases hj : joinSegs sep (s2 :: rest2) with _ | ⟨d, ds⟩
        · exact absurd hj hne2
        · simp
      rw [hlast2] at hc
      rcases hl : (joinSegs sep (s2 :: rest2)).getLast? with _ | d
      · rw [hl] at hc
        exact absurd (List.getLast?_eq_none_iff.mp hl) hne2
      · rw [hl] at hc
        have : c = d := (by simpa using hc : d = c).symm
        rw [this]
        exact ih (by simp) (fun q hq => h q (List.mem_cons_of_mem s hq)) d
          hl

theorem normSegs_nil (aar : Bool) (acc : List (List Char)) :
    normSegs aar [] acc = acc.reverse := rfl

theorem normSegs_cons_skip (aar : Bool) (seg : List Char)
    (rest : List (List Char)) (acc : List (List Char))
    (h : seg = [] ∨ seg = ['.']) :
    normSegs aar (seg :: rest) acc = normSegs aar rest acc := by
  conv_lhs => unfold normSegs
  simp [h]

theorem normSegs_cons_dotdot (aar : Bool) (rest : List (List Char))
    (acc : List (List Char)) :
    normSegs aar (['.', '.'] :: rest) acc =
      match acc with
      | [] => normSegs aar rest (if aar then [['.', '.']] else [])
      | a :: as =>
        if a = ['.', '.'] then
          normSegs aar rest (if aar then ['.', '.'] :: (a :: as) else a :: as)
        else normSegs aar rest as := by
  conv_lhs => unfold normSegs
  simp

theorem normSegs_cons_good (aar : Bool) (seg : List Char)
    (rest : List (List Char)) (acc : List (List Char)) (h : goodSeg seg) :
    normSegs aar (seg :: rest) acc = normSegs aar rest (seg :: acc) := by
  obtain ⟨h1, h2, h3⟩ := h
  conv_lhs => unfold normSegs
  simp [h1, h2, h3]

theorem normSegs_good (aar : Bool) (l : List (List Char))
    (acc : List (List Char)) (h : ∀ s ∈ l, goodSeg s) :
    normSegs aar l acc = acc.reverse ++ l := by
  induction l generalizing acc with
  | nil => simp [normSegs_nil]
  | cons s rest ih =>
    rw [normSegs_cons_good aar s rest acc (h s (List.mem_cons_self s rest))]
    rw [ih (s :: acc) (fun q hq => h q (List.mem_cons_of_mem s hq))]
    simp

theorem normSegs_leading_dotdot (k : Nat) (l' : List (List Char))
    (acc : List (List Char)) (hl : ∀ s ∈ l', goodSeg s)
    (hacc : ∀ s ∈ acc, s = ['.', '.']) :
    normSegs true (List.replicate k ['.', '.'] ++ l') acc =
      acc.reverse ++ List.replicate k ['.', '.'] ++ l' := by
  induction k generalizing acc with
  | zero =>
    simp only [List.replicate, List.nil_append]
    rw [normSegs_good true l' acc hl]
    simp
  | succ k ih =>
    rw [List.replicate_succ, List.cons_append, normSegs_cons_dotdot]
    cases acc with
    | nil =>
      show normSegs true (List.replicate k ['.', '.'] ++ l')
        [['.', '.']] = _
      rw [ih [['.', '.']] (by
        intro s hs
        simpa using hs)]
      simp
    | cons a as =>
      have ha : a = ['.', '.'] := hacc a (List.mem_cons_self a as)
      subst ha
      show normSegs true (List.replicate k ['.', '.'] ++ l')
        (['.', '.'] :: ['.', '.'] :: as) = _
      rw [ih (['.', '.'] :: ['.', '.'] :: as) (by
        intro s hs
        rcases List.mem_cons.mp hs with h1 | h1
        · exact h1
        · exact hacc s h1)]
      simp

theorem normSegs_append_empty (aar : Bool) (l : List (List Char))
    (acc : List (List Char)) :
    normSegs aar (l ++ [[]]) acc = normSegs aar l acc := by
  induction l generalizing acc with
  | nil =>
    rw [List.nil_append, normSegs_cons_skip aar [] [] acc (Or.inl rfl)]
  | cons s rest ih =>
    by_cases h1 : s = [] ∨ s = ['.']
    · rw [List.cons_append, normSegs_cons_skip aar s _ acc h1,
        normSegs_cons_skip aar s rest acc h1]
      exact ih acc
    · push_neg at h1
      by_cases h3 : s = ['.', '.']
      · rw [h3, List.cons_append, normSegs_cons_dotdot,
          normSegs_cons_dotdot]
        cases acc with
        | nil => exact ih _
        | cons a as =>
          by_cases ha : a = ['.', '.']
          · simp only [ha, if_true]
            exact ih _
          · simp only [ha, if_false]
            exact ih _
      · have hg : goodSeg s := ⟨h1.1, h1.2, h3⟩
        rw [List.cons_append, normSegs_cons_good aar s _ acc hg,
          normSegs_cons_good aar s rest acc hg]
        exact ih _

theorem mem_normSegs (aar : Bool) (l : List (List Char))
    (acc : List (List Char)) (s : List Char)
    (h : s ∈ normSegs aar l acc) :
    s ∈ acc ∨ s ∈ l ∨ s = ['.', '.'] := by
  induction l generalizing acc with
  | nil =>
    rw [normSegs_nil] at h
    exact Or.inl (List.mem_reverse.mp h)
  | cons seg rest ih =>
    by_cases h1 : seg = [] ∨ seg = ['.']
    · rw [normSegs_cons_skip aar seg rest acc h1] at h
      rcases ih acc h with h2 | h2 | h2
      · exact Or.inl h2
      · exact Or.inr (Or.inl (List.mem_cons_of_mem seg h2))
      · exact Or.inr (Or.inr h2)
    · push_neg at h1
      by_cases h3 : seg = ['.', '.']
      · rw [h3, normSegs_cons_dotdot] at h
        cases acc with
        | nil =>
          cases aar with
          | true =>
            simp only [if_true] at h
            rcases ih _ h with h2 | h2 | h2
            · rcases List.mem_singleton.mp h2 with h4
              exact Or.inr (Or.inr h4)
            · exact Or.inr (Or.inl (List.mem_cons_of_mem _ h2))
            · exact Or.inr (Or.inr h2)
          | false =>
            simp only [if_false] at h
            rcases ih _ h with h2 | h2 | h2
            · exact absurd h2 (List.not_mem_nil s)
            · exact Or.inr (Or.inl (List.mem_cons_of_mem _ h2))
            · exact Or.inr (Or.inr h2)
        | cons a as =>
          by_cases ha : a = ['.', '.']
          · subst ha
            cases aar with
            | true =>
              have h' : s ∈ normSegs true rest
                  (['.', '.'] :: ['.', '.'] :: as) := h
              rcases ih _ h' with h2 | h2 | h2
              · rcases List.mem_cons.mp h2 with h4 | h4
                · exact Or.inr (Or.inr h4)
                · exact Or.inl h4
              · exact Or.inr (Or.inl (List.mem_cons_of_mem _ h2))
              · exact Or.inr (Or.inr h2)
            | false =>
              have h' : s ∈ normSegs false rest (['.', '.'] :: as) := h
              rcases ih _ h' with h2 | h2 | h2
              · exact Or.inl h2
              · exact Or.inr (Or.inl (List.mem_cons_of_mem _ h2))
              · exact Or.inr (Or.inr h2)
          · simp only [ha, if_false] at h
            rcases ih _ h with h2 | h2 | h2
            · exact Or.inl (List.mem_cons_of_mem a h2)
            · exact Or.inr (Or.inl (List.mem_cons_of_mem _ h2))
            · exact Or.inr (Or.inr h2)
      · have hg : goodSeg seg := ⟨h1.1, h1.2, h3⟩
        rw [normSegs_cons_good aar seg rest acc hg] at h
        rcases ih _ h with h2 | h2 | h2
        · rcases List.mem_cons.mp h2 with h4 | h4
          · exact Or.inr (Or.inl (h4 ▸ List.mem_cons_self seg rest))
          · exact Or.inl h4
        · exact Or.inr (Or.inl (List.mem_cons_of_mem seg h2))
        · exact Or.inr (Or.inr h2)

theorem normSegs_shape (aar : Bool) (l : List (List Char))
    (acc : List (List Char)) (hinv : stackInv acc) :
    ∃ k good, normSegs aar l acc =
      List.replicate k ['.', '.'] ++ good ∧ ∀ s ∈ good, goodSeg s := by
  induction l generalizing acc with
  | nil =>
    obtain ⟨g, d, he, hg, hd⟩ := hinv
    refine ⟨d.length, g.reverse, ?_, ?_⟩
    · rw [normSegs_nil, he, List.reverse_append]
      have hdrev : d.reverse = List.replicate d.length ['.', '.'] := by
        have : d = List.replicate d.length ['.', '.'] :=
          List.eq_replicate_of_mem hd
        rw [this]
        simp [List.reverse_replicate]
      rw [hdrev]
    · exact fun s hs => hg s (List.mem_reverse.mp hs)
  | cons seg rest ih =>
    by_cases h1 : seg = [] ∨ seg = ['.']
    · rw [normSegs_cons_skip aar seg rest acc h1]
      exact ih acc hinv
    · push_neg at h1
      by_cases h3 : seg = ['.', '.']
      · rw [h3, normSegs_cons_dotdot]
        obtain ⟨g, d, he, hg, hd⟩ := hinv
        cases acc with
        | nil =>
          cases aar with
          | true =>
            apply ih [['.', '.']]
            exact ⟨[], [['.', '.']], rfl, by simp, by
              intro s hs
              simpa using hs⟩
          | false =>
            apply ih []
            exact ⟨[], [], rfl, by simp, by simp⟩
        | cons a as =>
          by_cases ha : a = ['.', '.']
          · subst ha
            have hgnil : g = [] := by
              cases g with
              | nil => rfl
              | cons g0 gs =>
                exfalso
                have : g0 = ['.', '.'] := by
                  have := he
                  simp only [List.cons_append] at this
                  exact (List.cons.injEq _ _ _ _).mp this |>.1 |>.symm
                exact (hg g0 (List.mem_cons_self g0 gs)).2.2 this
            have hdall : ∀ s ∈ (['.', '.'] :: as), s = ['.', '.'] := by
              rw [he, hgnil, List.nil_append] at *
              exact hd
            cases aar with
            | true =>
              have hgoal : ∃ k good, normSegs true rest
                  (['.', '.'] :: ['.', '.'] :: as) =
                  List.replicate k ['.', '.'] ++ good ∧
                  ∀ s ∈ good, goodSeg s := by
                apply ih
                exact ⟨[], ['.', '.'] :: ['.', '.'] :: as, rfl, by simp, by
                  intro s hs
                  rcases List.mem_cons.mp hs with h4 | h4
                  · exact h4
                  · exact hdall s h4⟩
              exact hgoal
            | false =>
              have hgoal : ∃ k good, normSegs false rest
                  (['.', '.'] :: as) =
                  List.replicate k ['.', '.'] ++ good ∧
                  ∀ s ∈ good, goodSeg s := by
                apply ih
                exact ⟨[], ['.', '.'] :: as, rfl, by simp, hdall⟩
              exact hgoal
          · simp only [ha, if_false]
            apply ih as
            cases g with
            | nil =>
              exfalso
              rw [List.nil_append] at he
              exact ha (hd a (he ▸ List.mem_cons_self a as))
            | cons g0 gs =>
              have hae : a = g0 ∧ as = gs ++ d := by
                simp only [List.cons_append] at he
                exact ⟨((List.cons.injEq _ _ _ _).mp he).1,
                  ((List.cons.injEq _ _ _ _).mp he).2⟩
              exact ⟨gs, d, hae.2, fun s hs =>
                hg s (List.mem_cons_of_mem g0 hs), hd⟩
      · have hgood : goodSeg seg := ⟨h1.1, h1.2, h3⟩
        rw [normSegs_cons_good aar seg rest acc hgood]
        obtain ⟨g, d, he, hg, hd⟩ := hinv
        apply ih (seg :: acc)
        refine ⟨seg :: g, d, by rw [he]; rfl, ?_, hd⟩
        intro s hs
        rcases List.mem_cons.mp hs with h4 | h4
        · exact h4 ▸ hgood
        · exact hg s h4

theorem stripLeadingSlashes_cons_slash (l : List Char) :
    stripLeadingSlashes ('/' :: l) = stripLeadingSlashes l := by
  unfold stripLeadingSlashes
  rw [List.dropWhile_cons_of_pos (by simp)]

theorem stripLeadingSlashes_of_head_ne (l : List Char)
    (h : ∀ d, l.head? = some d → d ≠ '/') :
    stripLeadingSlashes l = l := by
  cases l with
  | nil => rfl
  | cons c cs =>
    have hc : c ≠ '/' := h c rfl
    unfold stripLeadingSlashes
    rw [List.dropWhile_cons_of_neg (by simp [hc])]

theorem posixNormalizeChars_eq (p : List Char) (hp : p ≠ []) :
    posixNormalizeChars p =
      (if joinSegs '/'
          (normSegs (!isAbsolutePath p) (splitOnChar '/' p) []) = [] then
        (if isAbsolutePath p then ['/']
         else if hasTrailingSep p then ['.', '/'] else ['.'])
      else
        (if isAbsolutePath p then ['/'] else []) ++
          joinSegs '/'
            (normSegs (!isAbsolutePath p) (splitOnChar '/' p) []) ++
          (if hasTrailingSep p then ['/'] else [])) := by
  unfold posixNormalizeChars
  rw [if_neg hp]

theorem posixNormalizeChars_of_normal (segs : List (List Char)) (k : Nat)
    (good : List (List Char)) (suf : List Char)
    (hdecomp : segs = List.replicate k ['.', '.'] ++ good)
    (hgood : ∀ s ∈ good, goodSeg s)
    (hnoslash : ∀ s ∈ segs, '/' ∉ s)
    (hsegsne : segs ≠ [])
    (hsuf : suf = [] ∨ suf = ['/'])
    (hbody : joinSegs '/' segs ≠ []) :
    posixNormalizeChars (joinSegs '/' segs ++ suf) =
      joinSegs '/' segs ++ suf := by
  have hallne : ∀ s ∈ segs, s ≠ [] := by
    intro s hs
    rw [hdecomp] at hs
    rcases List.mem_append.mp hs with h | h
    · rw [List.eq_of_mem_replicate h]
      simp
    · exact (hgood s h).1
  obtain ⟨s0, srest, hsegs0⟩ : ∃ s0 srest, segs = s0 :: srest := by
    cases segs with
    | nil => exact absurd rfl hsegsne
    | cons a b => exact ⟨a, b, rfl⟩
  have hs0ne : s0 ≠ [] :=
    hallne s0 (by rw [hsegs0]; exact List.mem_cons_self _ _)
  have hhead : (joinSegs '/' segs).head? = s0.head? := by
    rw [hsegs0]
    exact head?_joinSegs '/' s0 srest hs0ne
  have hheadne : ∀ c, (joinSegs '/' segs).head? = some c → c ≠ '/' := by
    intro c hc
    rw [hhead] at hc
    have hcm : c ∈ s0 := by
      cases s0 with
      | nil => simp at hc
      | cons c0 cs0 =>
        simp only [List.head?_cons, Option.some.injEq] at hc
        exact hc ▸ List.mem_cons_self c0 cs0
    exact fun he => hnoslash s0
      (by rw [hsegs0]; exact List.mem_cons_self _ _) (he ▸ hcm)
  have hne2 : joinSegs '/' segs ++ suf ≠ [] := by
    intro h
    exact hbody (List.append_eq_nil.mp h).1
  have habs : isAbsolutePath (joinSegs '/' segs ++ suf) = false := by
    rcases hj : joinSegs '/' segs with _ | ⟨c, cs⟩
    · exact absurd hj hbody
    · have hcne : c ≠ '/' := hheadne c (by rw [hj]; rfl)
      show (c == '/') = false
      simp [hcne]
  have hlastne : ∀ c, (joinSegs '/' segs).getLast? = some c → c ≠ '/' :=
    getLast?_joinSegs '/' segs hsegsne
      (fun s hs => ⟨hallne s hs, hnoslash s hs⟩)
  have hsplitjoin : splitOnChar '/' (joinSegs '/' segs) = segs :=
    splitOnChar_join '/' segs
      (fun s hs c hc => fun he => hnoslash s hs (he ▸ hc)) hsegsne
  have hnormsegs : normSegs true segs [] = segs := by
    rw [hdecomp, normSegs_leading_dotdot k good [] hgood (by simp)]
    simp
  rcases hsuf with hsuf | hsuf
  · subst hsuf
    rw [List.append_nil] at hne2 habs ⊢
    obtain ⟨c, hc⟩ : ∃ c, (joinSegs '/' segs).getLast? = some c := by
      rcases hl : (joinSegs '/' segs).getLast? with _ | c
      · exact absurd (List.getLast?_eq_none_iff.mp hl) hbody
      · exact ⟨c, rfl⟩
    have htrail : hasTrailingSep (joinSegs '/' segs) = false := by
      unfold hasTrailingSep
      rw [hc]
      simp [hlastne c hc]
    rw [posixNormalizeChars_eq _ hne2, habs, htrail]
    simp only [Bool.not_false, hsplitjoin, hnormsegs, Bool.false_eq_true,
      if_false, List.nil_append, List.append_nil]
    rw [if_neg hbody]
  · subst hsuf
    have htrail : hasTrailingSep (joinSegs '/' segs ++ ['/']) = true := by
      unfold hasTrailingSep
      rw [List.getLast?_concat]
      simp
    have hsplit2 : splitOnChar '/' (joinSegs '/' segs ++ ['/']) =
        segs ++ [[]] := by
      rw [splitOnChar_append_sep_end, hsplitjoin]
    have hnorm2 : normSegs true (segs ++ [[]]) [] = segs := by
      rw [normSegs_append_empty]
      exact hnormsegs
    rw [posixNormalizeChars_eq _ hne2, habs, htrail]
    simp only [Bool.not_false, hsplit2, hnorm2, Bool.false_eq_true,
      if_false, if_true, List.nil_append]
    rw [if_neg hbody]

theorem strip_posixNormalize_fix (p : List Char) (hp : p ≠ [])
    (hne : stripLeadingSlashes (posixNormalizeChars p) ≠ []) :
    posixNormalizeChars (stripLeadingSlashes (posixNormalizeChars p)) =
      stripLeadingSlashes (posixNormalizeChars p) := by
  obtain ⟨k, good, hdecomp, hgood⟩ :=
    normSegs_shape (!isAbsolutePath p) (splitOnChar '/' p) []
      ⟨[], [], rfl, by simp, by simp⟩
  have hnoslash : ∀ s ∈ normSegs (!isAbsolutePath p) (splitOnChar '/' p) [],
      '/' ∉ s := by
    intro s hs
    rcases mem_normSegs _ _ _ s hs with h | h | h
    · exact absurd h (List.not_mem_nil s)
    · exact mem_splitOnChar_no_sep '/' p s h
    · rw [h]
      decide
  by_cases hbody :
      joinSegs '/' (normSegs (!isAbsolutePath p) (splitOnChar '/' p) []) = []
  · rw [posixNormalizeChars_eq p hp, if_pos hbody] at hne ⊢
    by_cases habs : isAbsolutePath p = true
    · rw [habs] at hne
      simp only [if_true] at hne
      exact absurd rfl hne
    · have habs2 : isAbsolutePath p = false := by
        revert habs
        cases isAbsolutePath p <;> simp
      rw [habs2] at hne ⊢
      simp only [Bool.false_eq_true, if_false] at hne ⊢
      by_cases htr : hasTrailingSep p = true
      · rw [htr] at hne ⊢
        simp only [if_true] at hne ⊢
        decide
      · have htr2 : hasTrailingSep p = false := by
          revert htr
          cases hasTrailingSep p <;> simp
        rw [htr2] at hne ⊢
        simp only [Bool.false_eq_true, if_false] at hne ⊢
        decide
  · have hsegsne :
        normSegs (!isAbsolutePath p) (splitOnChar '/' p) [] ≠ [] := by
      intro h
      rw [h] at hbody
      exact hbody rfl
    have hstrip : stripLeadingSlashes (posixNormalizeChars p) =
        joinSegs '/' (normSegs (!isAbsolutePath p) (splitOnChar '/' p) []) ++
          (if hasTrailingSep p then ['/'] else []) := by
      rw [posixNormalizeChars_eq p hp, if_neg hbody]
      have hallne : ∀ s ∈ normSegs (!isAbsolutePath p)
          (splitOnChar '/' p) [], s ≠ [] := by
        intro s hs
        rw [hdecomp] at hs
        rcases List.mem_append.mp hs with h | h
        · rw [List.eq_of_mem_replicate h]
          simp
        · exact (hgood s h).1
      obtain ⟨s0, srest, hsegs0⟩ : ∃ s0 srest,
          normSegs (!isAbsolutePath p) (splitOnChar '/' p) [] =
            s0 :: srest := by
        rcases hc : normSegs (!isAbsolutePath p) (splitOnChar '/' p) []
          with _ | ⟨a, b⟩
        · exact absurd hc hsegsne
        · exact ⟨a, b, rfl⟩
      have hs0ne : s0 ≠ [] :=
        hallne s0 (by rw [hsegs0]; exact List.mem_cons_self _ _)
      have hheadeq : (joinSegs '/' (normSegs (!isAbsolutePath p)
          (splitOnChar '/' p) [])).head? = s0.head? := by
        rw [hsegs0]
        exact head?_joinSegs '/' s0 srest hs0ne
      have hheadne : ∀ c, (joinSegs '/' (normSegs (!isAbsolutePath p)
          (splitOnChar '/' p) []) ++
          (if hasTrailingSep p then ['/'] else [])).head? = some c →
          c ≠ '/' := by
        intro c hc
        rcases hj : joinSegs '/' (normSegs (!isAbsolutePath p)
            (splitOnChar '/' p) []) with _ | ⟨c0, cs0⟩
        · exact absurd hj hbody
        · rw [hj] at hc
          simp only [List.cons_append, List.head?_cons,
            Option.some.injEq] at hc
          have hc0 : s0.head? = some c0 := by
            rw [← hheadeq, hj]
            rfl
          have hc0m : c0 ∈ s0 := by
            cases s0 with
            | nil => simp at hc0
            | cons d ds =>
              simp only [List.head?_cons, Option.some.injEq] at hc0
              exact hc0 ▸ List.mem_cons_self d ds
          intro he
          exact hnoslash s0 (by rw [hsegs0]; exact List.mem_cons_self _ _)
            (he ▸ hc ▸ hc0m)
      by_cases habs : isAbsolutePath p = true
      · rw [if_pos habs]
        have hassoc : ((['/'] ++ joinSegs '/' (normSegs (!isAbsolutePath p)
            (splitOnChar '/' p) [])) ++
            (if hasTrailingSep p then ['/'] else [])) =
            '/' :: (joinSegs '/' (normSegs (!isAbsolutePath p)
              (splitOnChar '/' p) []) ++
              (if hasTrailingSep p then ['/'] else [])) := by
          simp
        rw [hassoc, stripLeadingSlashes_cons_slash]
        exact stripLeadingSlashes_of_head_ne _ hheadne
      · rw [if_neg habs]
        rw [List.nil_append]
        exact stripLeadingSlashes_of_head_ne _ hheadne
    rw [hstrip]
    exact posixNormalizeChars_of_normal
      (normSegs (!isAbsolutePath p) (splitOnChar '/' p) []) k good
      (if hasTrailingSep p then ['/'] else []) hdecomp hgood hnoslash
      hsegsne (by cases hasTrailingSep p <;> simp) hbody

theorem stripLeadingSlashes_head_ne (l : List Char) :
    ∀ d, (stripLeadingSlashes l).head? = some d → d ≠ '/' := by
  intro d hd
  have h := List.head?_dropWhile_not (fun c => c == '/') l
  unfold stripLeadingSlashes at hd
  rw [hd] at h
  simpa using h

theorem stripLeadingSlashes_idem (l : List Char) :
    stripLeadingSlashes (stripLeadingSlashes l) = stripLeadingSlashes l :=
  stripLeadingSlashes_of_head_ne _ (stripLeadingSlashes_head_ne l)

theorem posixJoinChars_nil_left (p : List Char) (hp : p ≠ []) :
    posixJoinChars [] p = posixNormalizeChars p := by
  unfold posixJoinChars
  simp [hp]

theorem normalizeUrl_no_leading_slash (basePath p : String) :
    beginsWithSlash (normalizeUrl basePath p) = false := by
  unfold beginsWithSlash normalizeUrl
  rcases hq : stripLeadingSlashes (posixJoinChars basePath.data p.data)
    with _ | ⟨c, cs⟩
  · rfl
  · have hc : c ≠ '/' := stripLeadingSlashes_head_ne _ c (by rw [hq]; rfl)
    show (c == '/') = false
    simp [hc]

theorem normalizeUrl_empty_base_idem (p : String)
    (h : normalizeUrl "" p ≠ "") :
    normalizeUrl "" (normalizeUrl "" p) = normalizeUrl "" p := by
  by_cases hp : p = ""
  · subst hp
    decide
  · have hpd : p.data ≠ [] := by
      intro hc
      apply hp
      exact String.ext hc
    have hjoin : posixJoinChars ("" : String).data p.data =
        posixNormalizeChars p.data := posixJoinChars_nil_left p.data hpd
    have hq : (normalizeUrl "" p).data =
        stripLeadingSlashes (posixNormalizeChars p.data) := by
      show stripLeadingSlashes (posixJoinChars ("" : String).data p.data) = _
      rw [hjoin]
    have hqne : stripLeadingSlashes (posixNormalizeChars p.data) ≠ [] := by
      intro hc
      apply h
      exact String.ext (by rw [hq, hc])
    have hfix := strip_posixNormalize_fix p.data hpd hqne
    show String.mk (stripLeadingSlashes
      (posixJoinChars ("" : String).data (normalizeUrl "" p).data)) = _
    rw [hq]
    rw [posixJoinChars_nil_left _ hqne]
    rw [hfix]
    rw [stripLeadingSlashes_idem]
    exact String.ext hq.symm

theorem objGet_foldl_objSet {α β : Type} (f : String × α → String)
    (g : String × α → β) :
    ∀ (l : List (String × α)) (init : List (String × β)) (t : String),
    objGet (l.foldl (fun acc q => objSet acc (f q) (g q)) init) t =
      ((l.reverse.find? (fun q => f q == t)).map (fun q => g q)).or
        (objGet init t) := by
  intro l
  induction l with
  | nil =>
    intro init t
    rfl
  | cons x rest ih =>
    intro init t
    simp only [List.foldl_cons, List.reverse_cons, List.find?_append]
    rw [ih (objSet init (f x) (g x)) t]
    rcases hfind : rest.reverse.find? (fun q => f q == t) with _ | q
    · simp only [Option.none_or, Option.map_none]
      by_cases hx : f x = t
      · rw [List.find?_cons_of_pos _ (by simp [hx])]
        rw [hx, objGet_objSet_self]
        rfl
      · rw [List.find?_cons_of_neg _ (by simp [hx])]
        rw [objGet_objSet_ne _ _ _ _ (fun he => hx he.symm)]
        rfl
    · simp

theorem nodup_objKeys_foldl_objSet {α β : Type} (f : String × α → String)
    (g : String × α → β) :
    ∀ (l : List (String × α)) (init : List (String × β)),
    (objKeys init).Nodup →
    (objKeys (l.foldl (fun acc q => objSet acc (f q) (g q)) init)).Nodup := by
  intro l
  induction l with
  | nil =>
    intro init h
    simpa using h
  | cons x rest ih =>
    intro init h
    simp only [List.foldl_cons]
    exact ih _ (nodup_objKeys_objSet h (f x) (g x))

theorem foldl_objSet_id {α : Type} (f : String × α → String)
    (g : String × α → α) :
    ∀ (l : List (String × α)) (init : List (String × α)),
    (∀ q ∈ l, f q = q.1 ∧ g q = q.2) →
    (objKeys l).Nodup →
    (∀ k ∈ objKeys l, k ∉ objKeys init) →
    l.foldl (fun acc q => objSet acc (f q) (g q)) init = init ++ l := by
  intro l
  induction l with
  | nil =>
    intro init _ _ _
    simp
  | cons x rest ih =>
    intro init hfix hnd hdis
    simp only [List.foldl_cons]
    have hx := hfix x (List.mem_cons_self x rest)
    have hx1 : x.1 ∉ objKeys init :=
      hdis x.1 (by simp [objKeys])
    have hstep : objSet init (f x) (g x) = init ++ [x] := by
      rw [hx.1, hx.2]
      rw [objSet_of_not_mem hx1]
    rw [hstep]
    have hnd2 : (objKeys rest).Nodup := by
      simp only [objKeys, List.map_cons, List.nodup_cons] at hnd
      exact hnd.2
    have hx1nd : x.1 ∉ objKeys rest := by
      simp only [objKeys, List.map_cons, List.nodup_cons] at hnd
      exact hnd.1
    have hdis2 : ∀ k ∈ objKeys rest, k ∉ objKeys (init ++ [x]) := by
      intro k hk hc
      have hkc : k ∈ objKeys (x :: rest) := by
        show k ∈ x.1 :: objKeys rest
        exact List.mem_cons_of_mem x.1 hk
      have hsplit2 : k ∈ objKeys init ∨ k ∈ objKeys [x] := by
        unfold objKeys at hc ⊢
        rw [List.map_append] at hc
        exact List.mem_append.mp hc
      rcases hsplit2 with hc1 | hc1
      · exact hdis k hkc hc1
      · have hkx : k = x.1 := by
          simpa [objKeys] using hc1
        exact hx1nd (hkx ▸ hk)
    rw [ih (init ++ [x])
      (fun q hq => hfix q (List.mem_cons_of_mem x hq)) hnd2 hdis2]
    simp

theorem objKeys_foldl_subset {α β : Type} (f : String × α → String)
    (g : String × α → β) (l : List (String × α)) (t : String)
    (h : t ∈ objKeys (l.foldl (fun acc q => objSet acc (f q) (g q)) [])) :
    ∃ q ∈ l, t = f q := by
  unfold objKeys at h
  obtain ⟨p, hp, hpe⟩ := List.mem_map.mp h
  rcases mem_foldl_objSet f g l [] p hp with h1 | h1
  · exact absurd h1 (List.not_mem_nil p)
  · obtain ⟨q, hq, he⟩ := h1
    refine ⟨q, hq, ?_⟩
    rw [← hpe, he]

/-- C2 counterexample: with the nonempty base path b, normalizing the
one-entry manifest with key x yields key b/x, and normalizing again
yields b/b/x, so normalize is not idempotent for every base path. -/
theorem c2_counterexample :
    normalizePushManifest "b" (normalizePushManifest "b" [("x", [])]) ≠
      normalizePushManifest "b" [("x", [])] := by
  decide

/-- C2 amended: no key or dependency URL in the output of normalize
begins with a slash, for every manifest and every base path without
restriction; and normalize is idempotent for the empty base path on
manifests whose keys and dependency URLs do not normalize to the empty
string (that is, none of them denotes the bare root). -/
theorem c2_normalize_amended (m : PushManifest) (basePath : String) :
    (∀ p ∈ normalizePushManifest basePath m,
      beginsWithSlash p.1 = false ∧
      ∀ q ∈ p.2, beginsWithSlash q.1 = false) ∧
    ((∀ p ∈ m, normalizeUrl "" p.1 ≠ "" ∧
        ∀ q ∈ p.2, normalizeUrl "" q.1 ≠ "") →
      normalizePushManifest "" (normalizePushManifest "" m) =
        normalizePushManifest "" m) := by
  constructor
  · intro p hp
    rcases mem_foldl_objSet (fun q => normalizeUrl basePath q.1)
        (fun q => normalizeCollection basePath q.2) m [] p hp with h1 | h1
    · exact absurd h1 (List.not_mem_nil p)
    · obtain ⟨q0, _, he⟩ := h1
      constructor
      · rw [he]
        exact normalizeUrl_no_leading_slash basePath q0.1
      · intro q hq
        rw [he] at hq
        rcases mem_foldl_objSet (fun r => normalizeUrl basePath r.1)
            (fun r => r.2) q0.2 [] q hq with h2 | h2
        · exact absurd h2 (List.not_mem_nil q)
        · obtain ⟨r0, _, he2⟩ := h2
          rw [he2]
          exact normalizeUrl_no_leading_slash basePath r0.1
  · intro hroot
    have hcolid : ∀ c : PushManifestEntryCollection,
        (∀ q ∈ c, normalizeUrl "" q.1 ≠ "") →
        normalizeCollection "" (normalizeCollection "" c) =
          normalizeCollection "" c := by
      intro c hc
      have hfix : ∀ r ∈ normalizeCollection "" c,
          (fun r : String × PushManifestEntry =>
            normalizeUrl "" r.1) r = r.1 ∧
          (fun r : String × PushManifestEntry => r.2) r = r.2 := by
        intro r hr
        rcases mem_foldl_objSet (fun r => normalizeUrl "" r.1)
            (fun r => r.2) c [] r hr with h1 | h1
        · exact absurd h1 (List.not_mem_nil r)
        · obtain ⟨r0, hr0, he⟩ := h1
          constructor
          · rw [he]
            exact normalizeUrl_empty_base_idem r0.1 (hc r0 hr0)
          · rfl
      have hnd : (objKeys (normalizeCollection "" c)).Nodup :=
        nodup_objKeys_foldl_objSet (fun r => normalizeUrl "" r.1)
          (fun r => r.2) c [] (by simp [objKeys])
      have hid := foldl_objSet_id (fun r => normalizeUrl "" r.1)
        (fun r => r.2) (normalizeCollection "" c) [] hfix hnd
        (fun k _ => by simp [objKeys])
      exact hid.trans (List.nil_append _)
    have hfix : ∀ p ∈ normalizePushManifest "" m,
        (fun q : String × PushManifestEntryCollection =>
          normalizeUrl "" q.1) p = p.1 ∧
        (fun q : String × PushManifestEntryCollection =>
          normalizeCollection "" q.2) p = p.2 := by
      intro p hp
      rcases mem_foldl_objSet (fun q => normalizeUrl "" q.1)
          (fun q => normalizeCollection "" q.2) m [] p hp with h1 | h1
      · exact absurd h1 (List.not_mem_nil p)
      · obtain ⟨q0, hq0, he⟩ := h1
        constructor
        · rw [he]
          exact normalizeUrl_empty_base_idem q0.1 (hroot q0 hq0).1
        · rw [he]
          exact hcolid q0.2 (hroot q0 hq0).2
    have hnd : (objKeys (normalizePushManifest "" m)).Nodup :=
      nodup_objKeys_foldl_objSet (fun q => normalizeUrl "" q.1)
        (fun q => normalizeCollection "" q.2) m [] (by simp [objKeys])
    have hid := foldl_objSet_id (fun q => normalizeUrl "" q.1)
      (fun q => normalizeCollection "" q.2)
      (normalizePushManifest "" m) [] hfix hnd
      (fun k _ => by simp [objKeys])
    exact hid.trans (List.nil_append _)

/-- C2 amended witness: a concrete manifest with an absolute key and a
relative dependency under the empty base path. -/
theorem c2_normalize_amended_witness :
    (∀ p ∈ normalizePushManifest "b"
        ([("/index.html",
          [("css/app.css",
            { type := some ResourceType.style, weight := some 1 })])] :
          PushManifest),
      beginsWithSlash p.1 = false ∧
      ∀ q ∈ p.2, beginsWithSlash q.1 = false) ∧
    normalizePushManifest "" (normalizePushManifest ""
      [("/index.html",
        [("css/app.css",
          { type := some ResourceType.style, weight := some 1 })])]) =
      normalizePushManifest ""
        [("/index.html",
          [("css/app.css",
            { type := some ResourceType.style, weight := some 1 })])] := by
  have h1 := c2_normalize_amended
    [("/index.html",
      [("css/app.css",
        { type := some ResourceType.style, weight := some 1 })])] "b"
  have h2 := c2_normalize_amended
    [("/index.html",
      [("css/app.css",
        { type := some ResourceType.style, weight := some 1 })])] ""
  exact ⟨h1.1, h2.2 (by decide)⟩

/-- C9: when two distinct keys of a manifest normalize to the same
string, the normalized manifest holds exactly one entry under that
string, its value is the normalized collection of whichever source entry
was processed last (the last one in insertion order whose key normalizes
to that string), and the number of keys strictly decreases. -/
theorem c9_normalize_merges_keys (m : PushManifest) (basePath : String)
    (_hnd : (objKeys m).Nodup) (k₁ k₂ : String)
    (h1 : k₁ ∈ objKeys m) (h2 : k₂ ∈ objKeys m) (hne : k₁ ≠ k₂)
    (hcol : normalizeUrl basePath k₁ = normalizeUrl basePath k₂) :
    ((objKeys (normalizePushManifest basePath m)).count
      (normalizeUrl basePath k₁) = 1) ∧
    (objGet (normalizePushManifest basePath m)
        (normalizeUrl basePath k₁) =
      (m.reverse.find? (fun p =>
          normalizeUrl basePath p.1 == normalizeUrl basePath k₁)).map
        (fun p => normalizeCollection basePath p.2)) ∧
    ((objKeys (normalizePushManifest basePath m)).length <
      (objKeys m).length) := by
  have hlook : objGet (normalizePushManifest basePath m)
      (normalizeUrl basePath k₁) =
      (m.reverse.find? (fun p =>
          normalizeUrl basePath p.1 == normalizeUrl basePath k₁)).map
        (fun p => normalizeCollection basePath p.2) := by
    have h := objGet_foldl_objSet (fun q => normalizeUrl basePath q.1)
      (fun q => normalizeCollection basePath q.2) m []
      (normalizeUrl basePath k₁)
    rw [show objGet ([] : PushManifest) (normalizeUrl basePath k₁) =
      none from rfl, Option.or_none] at h
    exact h
  have hfound : ∃ q, m.reverse.find? (fun p =>
      normalizeUrl basePath p.1 == normalizeUrl basePath k₁) = some q := by
    obtain ⟨p1, hp1, hp1e⟩ := List.mem_map.mp h1
    have hp1r : p1 ∈ m.reverse := List.mem_reverse.mpr hp1
    have hpred : (fun p : String × PushManifestEntryCollection =>
        normalizeUrl basePath p.1 == normalizeUrl basePath k₁) p1 = true := by
      simp [hp1e]
    rcases hfind : m.reverse.find? (fun p =>
        normalizeUrl basePath p.1 == normalizeUrl basePath k₁) with _ | q
    · exact absurd hpred (by
        have := List.find?_eq_none.mp hfind p1 hp1r
        simpa using this)
    · exact ⟨q, hfind⟩
  have hndout : (objKeys (normalizePushManifest basePath m)).Nodup :=
    nodup_objKeys_foldl_objSet (fun q => normalizeUrl basePath q.1)
      (fun q => normalizeCollection basePath q.2) m [] (by simp [objKeys])
  obtain ⟨q, hq⟩ := hfound
  have hmem : normalizeUrl basePath k₁ ∈
      objKeys (normalizePushManifest basePath m) := by
    apply mem_objKeys_of_objGet
    rw [hlook, hq]
    rfl
  refine ⟨List.count_eq_one_of_mem hndout hmem, hlook, ?_⟩
  have hsub : ∀ t ∈ objKeys (normalizePushManifest basePath m),
      t ∈ (objKeys m).map (fun k => normalizeUrl basePath k) := by
    intro t ht
    obtain ⟨q0, hq0, he⟩ := objKeys_foldl_subset
      (fun q => normalizeUrl basePath q.1)
      (fun q => normalizeCollection basePath q.2) m t ht
    exact List.mem_map.mpr ⟨q0.1, List.mem_map.mpr ⟨q0, hq0, rfl⟩, he.symm⟩
  have hlen1 : (objKeys (normalizePushManifest basePath m)).length =
      (objKeys (normalizePushManifest basePath m)).toFinset.card :=
    (List.toFinset_card_of_nodup hndout).symm
  have hcard1 : (objKeys (normalizePushManifest basePath m)).toFinset ⊆
      ((objKeys m).map (fun k => normalizeUrl basePath k)).toFinset := by
    intro t ht
    rw [List.mem_toFinset] at ht ⊢
    exact hsub t ht
  have hnotnodup :
      ¬((objKeys m).map (fun k => normalizeUrl basePath k)).Nodup := by
    intro hinj
    exact hne (List.inj_on_of_nodup_map hinj h1 h2 hcol)
  have hdedlt :
      ((objKeys m).map (fun k => normalizeUrl basePath k)).dedup.length <
      ((objKeys m).map (fun k => normalizeUrl basePath k)).length := by
    have hsubl := List.dedup_sublist
      ((objKeys m).map (fun k => normalizeUrl basePath k))
    rcases Nat.lt_or_ge
        ((objKeys m).map (fun k => normalizeUrl basePath k)).dedup.length
        ((objKeys m).map (fun k => normalizeUrl basePath k)).length
      with hlt | hge
    · exact hlt
    · exfalso
      have hle := hsubl.length_le
      have heq := hsubl.eq_of_length (Nat.le_antisymm hle hge)
      exact hnotnodup (List.dedup_eq_self.mp heq)
  calc (objKeys (normalizePushManifest basePath m)).length
      = (objKeys (normalizePushManifest basePath m)).toFinset.card :=
        hlen1
    _ ≤ ((objKeys m).map (fun k => normalizeUrl basePath k)).toFinset.card :=
        Finset.card_le_card hcard1
    _ = ((objKeys m).map (fun k => normalizeUrl basePath k)).dedup.length :=
        List.card_toFinset _
    _ < ((objKeys m).map (fun k => normalizeUrl basePath k)).length :=
        hdedlt
    _ = (objKeys m).length := List.length_map _ _

/-- C9 witness: the keys /a.css and a.css of a concrete raw manifest
both normalize to a.css under the empty base path; the normalized
manifest has one a.css entry holding the later collection, and one key
instead of two. -/
theorem c9_normalize_merges_keys_witness :
    ((objKeys (normalizePushManifest ""
        ([("/a.css", []),
          ("a.css",
            [("x.css",
              { type := some ResourceType.style, weight := some 1 })])] :
          PushManifest))).count (normalizeUrl "" "/a.css") = 1) ∧
    (objGet (normalizePushManifest ""
        ([("/a.css", []),
          ("a.css",
            [("x.css",
              { type := some ResourceType.style, weight := some 1 })])] :
          PushManifest)) (normalizeUrl "" "/a.css") =
      (([("/a.css", []),
          ("a.css",
            [("x.css",
              { type := some ResourceType.style, weight := some 1 })])] :
          PushManifest).reverse.find? (fun p =>
          normalizeUrl "" p.1 == normalizeUrl "" "/a.css")).map
        (fun p => normalizeCollection "" p.2)) ∧
    ((objKeys (normalizePushManifest ""
        ([("/a.css", []),
          ("a.css",
            [("x.css",
              { type := some ResourceType.style, weight := some 1 })])] :
          PushManifest))).length <
      (objKeys ([("/a.css", []),
          ("a.css",
            [("x.css",
              { type := some ResourceType.style, weight := some 1 })])] :
          PushManifest)).length) :=
  c9_normalize_merges_keys
    [("/a.css", []),
     ("a.css",
       [("x.css", { type := some ResourceType.style, weight := some 1 })])]
    "" (by decide) "/a.css" "a.css" (by decide) (by decide) (by decide)
    (by decide)
